import Mathlib

/-!
# uptime-go client: transport core and check-tag resource

A shallow embedding of `pkg/client/client.go` and `pkg/client/checktag.go`.

* Go `string` and `[]byte` values are byte sequences (`List Nat`, every entry below 256);
  a nil `[]byte` is `none`.
* The libraries the package calls are modelled as far as the package observes them:
  `unicode/utf8` (`DecodeRune`, `EncodeRune`), `encoding/json` (`Marshal`, `Unmarshal`,
  `Decoder.Decode`), `net/http` headers and the retry loop of `go-retryablehttp` are
  embedded as functions; the network, `net/url` parsing, float formatting and Unicode
  case folding are fields of `World`.
* `context.Context` plays no role in the package beyond being passed on and is dropped.
-/

namespace Uptime

/-! ## Byte strings -/

/-- A Go `string` or non-nil `[]byte`: a sequence of bytes. -/
abbrev Bytes := List Nat

/-- The bytes of an ASCII source literal. -/
def lit (s : String) : Bytes := s.toList.map Char.toNat

/-! ## unicode/utf8 -/

/-- The constant `utf8.RuneError` (U+FFFD). -/
def RuneError : Nat := 0xFFFD

/-- The constant `utf8.RuneSelf`. -/
def RuneSelf : Nat := 0x80

/-- Continuation byte test: `locb <= b <= hicb`. -/
def isCont (b : Nat) : Bool := decide (0x80 ≤ b) && decide (b ≤ 0xBF)

/-- The function `utf8.DecodeRune`: the first rune of `p` and its width in bytes.
The `first` table and `acceptRanges` are unfolded into comparisons on the lead byte;
shifts and masks of disjoint bit fields are written as multiplication and remainder. -/
def DecodeRune : Bytes → Nat × Nat
  | [] => (RuneError, 0)
  | p0 :: rest =>
    if p0 < 0x80 then (p0, 1)
    else if p0 < 0xC2 then (RuneError, 1)
    else if p0 < 0xE0 then
      match rest with
      | b1 :: _ =>
        if isCont b1 then ((p0 % 32) * 64 + b1 % 64, 2) else (RuneError, 1)
      | _ => (RuneError, 1)
    else if p0 < 0xF0 then
      match rest with
      | b1 :: b2 :: _ =>
        let lo := if p0 = 0xE0 then 0xA0 else 0x80
        let hi := if p0 = 0xED then 0x9F else 0xBF
        if b1 < lo ∨ hi < b1 then (RuneError, 1)
        else if isCont b2 then ((p0 % 16) * 4096 + (b1 % 64) * 64 + b2 % 64, 3)
        else (RuneError, 1)
      | _ => (RuneError, 1)
    else if p0 < 0xF5 then
      match rest with
      | b1 :: b2 :: b3 :: _ =>
        let lo := if p0 = 0xF0 then 0x90 else 0x80
        let hi := if p0 = 0xF4 then 0x8F else 0xBF
        if b1 < lo ∨ hi < b1 then (RuneError, 1)
        else if isCont b2 then
          if isCont b3 then
            ((p0 % 8) * 262144 + (b1 % 64) * 4096 + (b2 % 64) * 64 + b3 % 64, 4)
          else (RuneError, 1)
        else (RuneError, 1)
      | _ => (RuneError, 1)
    else (RuneError, 1)

/-- A Unicode scalar value: below 0x110000 and not a surrogate. -/
def validRune (r : Nat) : Bool :=
  decide (r < 0xD800) || (decide (0xE000 ≤ r) && decide (r < 0x110000))

/-- The function `utf8.EncodeRune` / `utf8.AppendRune`: the UTF-8 bytes of `r`; a
surrogate or out-of-range rune is written as `RuneError`. -/
def EncodeRune (r : Nat) : Bytes :=
  if r < 0x80 then [r]
  else if r < 0x800 then [0xC0 + r / 64, 0x80 + r % 64]
  else if validRune r then
    if r < 0x10000 then [0xE0 + r / 4096, 0x80 + (r / 64) % 64, 0x80 + r % 64]
    else [0xF0 + r / 262144, 0x80 + (r / 4096) % 64, 0x80 + (r / 64) % 64, 0x80 + r % 64]
  else [0xEF, 0xBF, 0xBD]

/-- The UTF-8 encoding of a sequence of runes. -/
def encodeRunes : List Nat → Bytes
  | [] => []
  | r :: rs => EncodeRune r ++ encodeRunes rs

/-- Well-formed UTF-8: the encoding of some sequence of Unicode scalar values. -/
def ValidUTF8 (s : Bytes) : Prop :=
  ∃ rs : List Nat, (∀ r ∈ rs, validRune r = true) ∧ s = encodeRunes rs

/-! ## encoding/json: values and the encoder -/

/-- A JSON document. A number keeps its literal text, a string its Go bytes. -/
inductive Json where
  | null : Json
  | bool (b : Bool) : Json
  | num (text : Bytes) : Json
  | str (s : Bytes) : Json
  | arr (xs : List Json) : Json
  | obj (kvs : List (Bytes × Json)) : Json

/-- The table `hex` of the encoder. -/
def hexDigit (n : Nat) : Nat := if n < 10 then 48 + n else 87 + n

/-- The table `htmlSafeSet`: ASCII bytes the encoder copies unescaped under
`escapeHTML = true`, which `json.Marshal` uses. -/
def htmlSafe (b : Nat) : Bool :=
  decide (0x20 ≤ b) && decide (b < 0x80) && !(b = 34 || b = 92 || b = 60 || b = 62 || b = 38)

/-- The escape the encoder writes for an ASCII byte outside `htmlSafeSet`. -/
def escapeByte (b : Nat) : Bytes :=
  if b = 92 ∨ b = 34 then [92, b]
  else if b = 8 then [92, 98]
  else if b = 12 then [92, 102]
  else if b = 10 then [92, 110]
  else if b = 13 then [92, 114]
  else if b = 9 then [92, 116]
  else [92, 117, 48, 48, hexDigit (b / 16), hexDigit (b % 16)]

/-- The loop of `appendString`, without the surrounding quotes. The fuel bounds the number
of iterations; each consumes at least one byte. -/
def appendStringBody : Nat → Bytes → Bytes
  | 0, _ => []
  | _ + 1, [] => []
  | fuel + 1, b :: rest =>
    if b < RuneSelf then
      (if htmlSafe b then [b] else escapeByte b) ++ appendStringBody fuel rest
    else
      let d := DecodeRune (b :: rest)
      if d.1 = RuneError ∧ d.2 = 1 then
        lit "\\ufffd" ++ appendStringBody fuel rest
      else if d.1 = 0x2028 ∨ d.1 = 0x2029 then
        lit "\\u202" ++ [hexDigit (d.1 % 16)] ++ appendStringBody fuel (rest.drop (d.2 - 1))
      else
        (b :: rest).take d.2 ++ appendStringBody fuel (rest.drop (d.2 - 1))

/-- The function `appendString`: the JSON string literal for Go string `s`. -/
def appendString (s : Bytes) : Bytes :=
  [34] ++ appendStringBody s.length s ++ [34]

mutual
/-- The compact text of a document, as `json.Marshal` writes it. -/
def Json.render : Json → Bytes
  | .null => lit "null"
  | .bool true => lit "true"
  | .bool false => lit "false"
  | .num text => text
  | .str s => appendString s
  | .arr xs => [91] ++ Json.renderElems xs ++ [93]
  | .obj kvs => [123] ++ Json.renderMembers kvs ++ [125]
/-- Array elements separated by commas. -/
def Json.renderElems : List Json → Bytes
  | [] => []
  | x :: xs =>
    match xs with
    | [] => Json.render x
    | _ :: _ => Json.render x ++ [44] ++ Json.renderElems xs
/-- Object members `"key":value` separated by commas. -/
def Json.renderMembers : List (Bytes × Json) → Bytes
  | [] => []
  | (k, v) :: kvs =>
    match kvs with
    | [] => appendString k ++ [58] ++ Json.render v
    | _ :: _ => appendString k ++ [58] ++ Json.render v ++ [44] ++ Json.renderMembers kvs
end

/-- The digit loop of `strconv.FormatUint`: digits of `n` by repeated division, put in
front of `acc`. -/
def decimalLoop : Nat → Nat → Bytes → Bytes
  | 0, _, acc => acc
  | fuel + 1, n, acc =>
    if n < 10 then (48 + n) :: acc else decimalLoop fuel (n / 10) ((48 + n % 10) :: acc)

/-- Decimal digits of `n`, as `strconv.AppendUint(_, n, 10)` and the verb `%d` write them. -/
def decimal (n : Nat) : Bytes := decimalLoop (n + 1) n []

/-- A byte after which a value inside an array or object ends: comma or closing bracket
or brace. -/
def isStop (c : Nat) : Bool := c = 44 || c = 93 || c = 125

/-- The input after a value is empty or begins with a stop byte. -/
def stops : Bytes → Bool
  | [] => true
  | c :: _ => isStop c

/-! ## encoding/json: the scanner and `unquote` -/

/-- The function `isSpace` of the scanner. -/
def isSpace (c : Nat) : Bool := c = 32 || c = 9 || c = 13 || c = 10

/-- Drop leading JSON white space. -/
def skipWS : Bytes → Bytes
  | [] => []
  | c :: rest => if isSpace c then skipWS rest else c :: rest

/-- A decimal digit. -/
def isDigit (c : Nat) : Bool := decide (48 ≤ c) && decide (c ≤ 57)

/-- Value of a hexadecimal digit. -/
def hexVal (c : Nat) : Option Nat :=
  if 48 ≤ c ∧ c ≤ 57 then some (c - 48)
  else if 97 ≤ c ∧ c ≤ 102 then some (c - 87)
  else if 65 ≤ c ∧ c ≤ 70 then some (c - 55)
  else none

/-- The function `getu4`, applied to what follows `\u`: the rune of four hex digits. -/
def getu4 : Bytes → Option (Nat × Bytes)
  | a :: b :: c :: d :: rest =>
    match hexVal a, hexVal b, hexVal c, hexVal d with
    | some a, some b, some c, some d => some (a * 4096 + b * 256 + c * 16 + d, rest)
    | _, _, _, _ => none
  | _ => none

/-- Put `x` in front of the bytes of a partial result. -/
def prepend (x : Bytes) : Option (Bytes × Bytes) → Option (Bytes × Bytes)
  | some (s, rest) => some (x ++ s, rest)
  | none => none

/-- The second half of a `\uXXXX\uXXXX` surrogate pair, if one follows. -/
def lowSurrogate : Bytes → Option (Nat × Bytes)
  | 92 :: 117 :: r =>
    match getu4 r with
    | some (rr1, r1) => if 0xDC00 ≤ rr1 ∧ rr1 < 0xE000 then some (rr1, r1) else none
    | none => none
  | _ => none

/-- The string scanner states together with `unquoteBytes`: from just after the opening
quote, the unquoted bytes of the literal and the input after its closing quote. Neither a
quote nor a backslash is a continuation byte, so decoding a rune inside the literal never
reaches past its end. -/
def parseStringBody : Nat → Bytes → Option (Bytes × Bytes)
  | 0, _ => none
  | _ + 1, [] => none
  | fuel + 1, c :: rest =>
    if c = 34 then some ([], rest)
    else if c = 92 then
      match rest with
      | [] => none
      | e :: rest1 =>
        if e = 34 ∨ e = 92 ∨ e = 47 then prepend [e] (parseStringBody fuel rest1)
        else if e = 98 then prepend [8] (parseStringBody fuel rest1)
        else if e = 102 then prepend [12] (parseStringBody fuel rest1)
        else if e = 110 then prepend [10] (parseStringBody fuel rest1)
        else if e = 114 then prepend [13] (parseStringBody fuel rest1)
        else if e = 116 then prepend [9] (parseStringBody fuel rest1)
        else if e = 117 then
          match getu4 rest1 with
          | none => none
          | some (rr, r2) =>
            if 0xD800 ≤ rr ∧ rr < 0xE000 then
              match (if rr < 0xDC00 then lowSurrogate r2 else none) with
              | some (rr1, r4) =>
                prepend (EncodeRune ((rr - 0xD800) * 1024 + (rr1 - 0xDC00) + 0x10000))
                  (parseStringBody fuel r4)
              | none => prepend (EncodeRune RuneError) (parseStringBody fuel r2)
            else prepend (EncodeRune rr) (parseStringBody fuel r2)
        else none
    else if c < 0x20 then none
    else if c < RuneSelf then prepend [c] (parseStringBody fuel rest)
    else
      let d := DecodeRune (c :: rest)
      prepend (EncodeRune d.1) (parseStringBody fuel (rest.drop (d.2 - 1)))

/-- A string literal from just after its opening quote. -/
def parseString (s : Bytes) : Option (Bytes × Bytes) := parseStringBody s.length s

/-- Scanner states `stateE`, `stateESign`, `stateE0`: an optional exponent. -/
def scanExp : Bytes → Option (Bytes × Bytes)
  | [] => some ([], [])
  | e :: r =>
    if e = 101 ∨ e = 69 then
      let sr : Bytes × Bytes :=
        match r with
        | c :: r1 => if c = 43 ∨ c = 45 then ([c], r1) else ([], r)
        | [] => ([], [])
      let ds := sr.2.span isDigit
      if ds.1 = [] then none else some (e :: sr.1 ++ ds.1, ds.2)
    else some ([], e :: r)

/-- Scanner states `stateDot`, `stateDot0`: an optional fraction, then the exponent. -/
def scanFrac : Bytes → Option (Bytes × Bytes)
  | 46 :: r =>
    let ds := r.span isDigit
    if ds.1 = [] then none else prepend (46 :: ds.1) (scanExp ds.2)
  | s => scanExp s

/-- Scanner states `state0`, `state1`: the integer part, then the rest of the number. -/
def scanInt : Bytes → Option (Bytes × Bytes)
  | [] => none
  | c :: r =>
    if c = 48 then prepend [48] (scanFrac r)
    else if 49 ≤ c ∧ c ≤ 57 then
      let ds := r.span isDigit
      prepend (c :: ds.1) (scanFrac ds.2)
    else none

/-- A number literal and the input after it. -/
def scanNumber : Bytes → Option (Bytes × Bytes)
  | 45 :: r => prepend [45] (scanInt r)
  | s => scanInt s

/-- The constant `maxNestingDepth` of the scanner. -/
def maxNestingDepth : Nat := 10000

mutual
/-- One JSON value from the front of the input (leading white space allowed) and the
input after it. `depth` is the number of enclosing arrays and objects. -/
def parseValue : Nat → Nat → Bytes → Option (Json × Bytes)
  | 0, _, _ => none
  | fuel + 1, depth, s =>
    match skipWS s with
    | [] => none
    | c :: rest =>
      if c = 123 then
        if maxNestingDepth ≤ depth then none
        else
          match skipWS rest with
          | 125 :: r => some (.obj [], r)
          | r =>
            match parseMembers fuel (depth + 1) r with
            | some (kvs, r1) => some (.obj kvs, r1)
            | none => none
      else if c = 91 then
        if maxNestingDepth ≤ depth then none
        else
          match skipWS rest with
          | 93 :: r => some (.arr [], r)
          | r =>
            match parseElems fuel (depth + 1) r with
            | some (xs, r1) => some (.arr xs, r1)
            | none => none
      else if c = 34 then
        match parseString rest with
        | some (str, r) => some (.str str, r)
        | none => none
      else if c = 45 ∨ isDigit c = true then
        match scanNumber (c :: rest) with
        | some (text, r) => some (.num text, r)
        | none => none
      else
        match c :: rest with
        | 116 :: 114 :: 117 :: 101 :: r => some (.bool true, r)
        | 102 :: 97 :: 108 :: 115 :: 101 :: r => some (.bool false, r)
        | 110 :: 117 :: 108 :: 108 :: r => some (.null, r)
        | _ => none
/-- Object members from the first key (white space already skipped) up to and including
the closing brace. -/
def parseMembers : Nat → Nat → Bytes → Option (List (Bytes × Json) × Bytes)
  | 0, _, _ => none
  | fuel + 1, depth, s =>
    match s with
    | 34 :: r =>
      match parseString r with
      | none => none
      | some (k, r1) =>
        match skipWS r1 with
        | 58 :: r2 =>
          match parseValue fuel depth r2 with
          | none => none
          | some (v, r3) =>
            match skipWS r3 with
            | 44 :: r4 =>
              match parseMembers fuel depth (skipWS r4) with
              | some (kvs, r5) => some ((k, v) :: kvs, r5)
              | none => none
            | 125 :: r4 => some ([(k, v)], r4)
            | _ => none
        | _ => none
    | _ => none
/-- Array elements from the first one up to and including the closing bracket. -/
def parseElems : Nat → Nat → Bytes → Option (List Json × Bytes)
  | 0, _, _ => none
  | fuel + 1, depth, s =>
    match parseValue fuel depth s with
    | none => none
    | some (v, r1) =>
      match skipWS r1 with
      | 44 :: r2 =>
        match parseElems fuel depth r2 with
        | some (xs, r3) => some (v :: xs, r3)
        | none => none
      | 93 :: r2 => some ([v], r2)
      | _ => none
end

/-- The scanner pass of `json.Unmarshal` (`checkValid`) together with the tokenising of
the decoder: the document that `data` spells, or `none` for a syntax error. The whole
input must be one value surrounded by white space. -/
def parseJSON (data : Bytes) : Option Json :=
  match parseValue (data.length + 1) 0 data with
  | some (j, rest) => if skipWS rest = [] then some j else none
  | none => none

/-! ## Errors and the decoder of encoding/json -/

/-- A Go `error` value, by the way it was made. -/
inductive GoError where
  /-- An error built in this package by `fmt.Errorf`, with its message. -/
  | errorf (msg : Bytes) : GoError
  /-- A `*json.SyntaxError`. -/
  | syntaxError : GoError
  /-- A `*json.UnmarshalTypeError`. -/
  | unmarshalTypeError : GoError
  /-- An error value handed over unchanged from a library call, with its message. -/
  | external (msg : Bytes) : GoError
  deriving DecidableEq, Repr

/-- The call `strconv.ParseUint(text, 10, 64)`. -/
def parseUint (text : Bytes) : Option Nat :=
  if text ≠ [] ∧ text.all isDigit = true then
    let n := text.foldl (fun a c => a * 10 + (c - 48)) 0
    if n < 2 ^ 64 then some n else none
  else none

/-- Store a JSON value into a `uint`: null leaves it, a number must parse. -/
def decodeUint (j : Json) (old : Nat) : Except GoError Nat :=
  match j with
  | .null => .ok old
  | .num text =>
    match parseUint text with
    | some n => .ok n
    | none => .error .unmarshalTypeError
  | _ => .error .unmarshalTypeError

/-- Store a JSON value into a `*uint`: null makes it nil, a number allocates. -/
def decodeUintPtr (j : Json) (old : Option Nat) : Except GoError (Option Nat) :=
  match j with
  | .null => .ok none
  | _ =>
    match decodeUint j (old.getD 0) with
    | .ok n => .ok (some n)
    | .error e => .error e

/-- Store a JSON value into a `string`: null leaves it. -/
def decodeString (j : Json) (old : Bytes) : Except GoError Bytes :=
  match j with
  | .null => .ok old
  | .str s => .ok s
  | _ => .error .unmarshalTypeError

/-- The decoder's field lookup: the field whose name equals the key, else the first field
whose folded name equals the folded key. -/
def findField (foldName : Bytes → Bytes) (names : List Bytes) (key : Bytes) : Option Nat :=
  match names.indexOf? key with
  | some i => some i
  | none => (names.map foldName).indexOf? (foldName key)

/-- The struct `CheckTag` of checktag.go; `Pk` is a `uint`. -/
structure CheckTag where
  Pk : Nat
  Url : Bytes
  Name : Bytes
  ColorHex : Bytes
  deriving DecidableEq, Repr

/-- The zero value of `CheckTag`. -/
def CheckTag.zero : CheckTag := ⟨0, [], [], []⟩

/-- JSON names of the fields of `CheckTag`, in declaration order. -/
def CheckTag.fieldNames : List Bytes := [lit "pk", lit "url", lit "tag", lit "color_hex"]

/-- What `json.Marshal` writes for a `CheckTag`: the fields in declaration order, `pk` and
`url` left out when empty (`omitempty`). -/
def CheckTag.toJson (t : CheckTag) : Json :=
  .obj ((if t.Pk = 0 then [] else [(lit "pk", Json.num (decimal t.Pk))])
    ++ (if t.Url = [] then [] else [(lit "url", Json.str t.Url)])
    ++ [(lit "tag", Json.str t.Name), (lit "color_hex", Json.str t.ColorHex)])

/-- The call `json.Marshal(tag)` for a `CheckTag`; it has no failing case. -/
def CheckTag.Marshal (t : CheckTag) : Bytes := t.toJson.render

/-- Store one object member into a `CheckTag`. Unknown keys are skipped. -/
def CheckTag.setField (foldName : Bytes → Bytes) (t : CheckTag) (key : Bytes) (v : Json) :
    Except GoError CheckTag :=
  match findField foldName CheckTag.fieldNames key with
  | some 0 => (decodeUint v t.Pk).map (fun n => { t with Pk := n })
  | some 1 => (decodeString v t.Url).map (fun x => { t with Url := x })
  | some 2 => (decodeString v t.Name).map (fun x => { t with Name := x })
  | some 3 => (decodeString v t.ColorHex).map (fun x => { t with ColorHex := x })
  | _ => .ok t

/-- Store the members of an object into a `CheckTag`, in input order. -/
def CheckTag.setFields (foldName : Bytes → Bytes) (t : CheckTag) :
    List (Bytes × Json) → Except GoError CheckTag
  | [] => .ok t
  | (k, v) :: kvs =>
    match CheckTag.setField foldName t k v with
    | .ok t1 => CheckTag.setFields foldName t1 kvs
    | .error e => .error e

/-- Store a JSON value into a `CheckTag`: null leaves it, an object sets fields. -/
def CheckTag.decode (foldName : Bytes → Bytes) (j : Json) (t : CheckTag) :
    Except GoError CheckTag :=
  match j with
  | .null => .ok t
  | .obj kvs => CheckTag.setFields foldName t kvs
  | _ => .error .unmarshalTypeError

/-- Store a JSON value into a `*CheckTag`: null makes it nil, anything else allocates a
zero record when the pointer is nil and stores into the record. -/
def CheckTag.decodePtr (foldName : Bytes → Bytes) (j : Json) (p : Option CheckTag) :
    Except GoError (Option CheckTag) :=
  match j with
  | .null => .ok none
  | _ => (CheckTag.decode foldName j (p.getD CheckTag.zero)).map some

/-- A `[]CheckTag`: its elements and, behind them, what its backing array still holds
within capacity. -/
structure TagSlice where
  elems : List CheckTag
  spare : List CheckTag
  deriving DecidableEq, Repr

/-- The element loop of the decoder's `array`: element `i` is stored into slot `i` of the
backing array (a fresh slot holds the zero value). -/
def decodeElems (foldName : Bytes → Bytes) :
    List Json → List CheckTag → Except GoError (List CheckTag)
  | [], _ => .ok []
  | x :: xs, slots =>
    match CheckTag.decode foldName x (slots.headD CheckTag.zero) with
    | .error e => .error e
    | .ok t =>
      match decodeElems foldName xs slots.tail with
      | .ok ts => .ok (t :: ts)
      | .error e => .error e

/-- Store a JSON value into a `[]CheckTag`: null makes it nil, an array sets the length to
the number of elements, an empty array makes a fresh empty slice. -/
def TagSlice.decode (foldName : Bytes → Bytes) (j : Json) (old : TagSlice) :
    Except GoError TagSlice :=
  match j with
  | .null => .ok ⟨[], []⟩
  | .arr [] => .ok ⟨[], []⟩
  | .arr xs =>
    match decodeElems foldName xs (old.elems ++ old.spare) with
    | .ok ts => .ok ⟨ts, (old.elems ++ old.spare).drop xs.length⟩
    | .error e => .error e
  | _ => .error .unmarshalTypeError

/-- The struct `CheckTagListResult`. -/
structure CheckTagListResult where
  Count : Nat
  Next : Option Nat
  Previous : Option Nat
  Results : TagSlice
  deriving DecidableEq, Repr

/-- The struct `CheckTagPostResult`. -/
structure CheckTagPostResult where
  Count : Nat
  Next : Option Nat
  Previous : Option Nat
  Results : CheckTag
  deriving DecidableEq, Repr

/-- JSON names of the fields of both envelopes. -/
def envelopeFieldNames : List Bytes :=
  [lit "count", lit "next", lit "previous", lit "results"]

/-- Store one object member into a `CheckTagListResult`. -/
def CheckTagListResult.setField (foldName : Bytes → Bytes) (r : CheckTagListResult)
    (key : Bytes) (v : Json) : Except GoError CheckTagListResult :=
  match findField foldName envelopeFieldNames key with
  | some 0 => (decodeUint v r.Count).map (fun n => { r with Count := n })
  | some 1 => (decodeUintPtr v r.Next).map (fun n => { r with Next := n })
  | some 2 => (decodeUintPtr v r.Previous).map (fun n => { r with Previous := n })
  | some 3 => (TagSlice.decode foldName v r.Results).map (fun x => { r with Results := x })
  | _ => .ok r

/-- Store the members of an object into a `CheckTagListResult`. -/
def CheckTagListResult.setFields (foldName : Bytes → Bytes) (r : CheckTagListResult) :
    List (Bytes × Json) → Except GoError CheckTagListResult
  | [] => .ok r
  | (k, v) :: kvs =>
    match CheckTagListResult.setField foldName r k v with
    | .ok r1 => CheckTagListResult.setFields foldName r1 kvs
    | .error e => .error e

/-- Store a JSON value into a nil `*CheckTagListResult`. -/
def CheckTagListResult.decodePtr (foldName : Bytes → Bytes) (j : Json) :
    Except GoError (Option CheckTagListResult) :=
  match j with
  | .null => .ok none
  | .obj kvs => (CheckTagListResult.setFields foldName ⟨0, none, none, ⟨[], []⟩⟩ kvs).map some
  | _ => .error .unmarshalTypeError

/-- Store one object member into a `CheckTagPostResult`. -/
def CheckTagPostResult.setField (foldName : Bytes → Bytes) (r : CheckTagPostResult)
    (key : Bytes) (v : Json) : Except GoError CheckTagPostResult :=
  match findField foldName envelopeFieldNames key with
  | some 0 => (decodeUint v r.Count).map (fun n => { r with Count := n })
  | some 1 => (decodeUintPtr v r.Next).map (fun n => { r with Next := n })
  | some 2 => (decodeUintPtr v r.Previous).map (fun n => { r with Previous := n })
  | some 3 => (CheckTag.decode foldName v r.Results).map (fun x => { r with Results := x })
  | _ => .ok r

/-- Store the members of an object into a `CheckTagPostResult`. -/
def CheckTagPostResult.setFields (foldName : Bytes → Bytes) (r : CheckTagPostResult) :
    List (Bytes × Json) → Except GoError CheckTagPostResult
  | [] => .ok r
  | (k, v) :: kvs =>
    match CheckTagPostResult.setField foldName r k v with
    | .ok r1 => CheckTagPostResult.setFields foldName r1 kvs
    | .error e => .error e

/-- Store a JSON value into a `CheckTagPostResult`. -/
def CheckTagPostResult.decode (foldName : Bytes → Bytes) (j : Json)
    (r : CheckTagPostResult) : Except GoError CheckTagPostResult :=
  match j with
  | .null => .ok r
  | .obj kvs => CheckTagPostResult.setFields foldName r kvs
  | _ => .error .unmarshalTypeError

/-- The call `json.Unmarshal(data, &v)`: a syntax error for text that is not one JSON
value, otherwise what storing the value into `v` gives. The decoder records the first
type error and goes on; its callers here drop the value whenever an error comes back, so
the model stops at the first error. -/
def Unmarshal {α : Type} (store : Json → Except GoError α) (data : Bytes) :
    Except GoError α :=
  match parseJSON data with
  | none => .error .syntaxError
  | some j => store j

/-! ## net/http: headers, requests, responses -/

/-- The function `validHeaderFieldByte`: the token characters of RFC 7230. -/
def validHeaderFieldByte (c : Nat) : Bool :=
  isDigit c || (decide (65 ≤ c) && decide (c ≤ 90)) || (decide (97 ≤ c) && decide (c ≤ 122))
    || (lit "!#$%&'*+-.^_|~").contains c || c = 96

/-- The letter-case loop of `canonicalMIMEHeaderKey`: upper case at the start and after a
dash, lower case elsewhere. -/
def canonicalLoop : Bool → Bytes → Bytes
  | _, [] => []
  | upper, c :: rest =>
    let c1 := if upper ∧ 97 ≤ c ∧ c ≤ 122 then c - 32
      else if ¬ upper ∧ 65 ≤ c ∧ c ≤ 90 then c + 32 else c
    c1 :: canonicalLoop (c1 = 45) rest

/-- The function `textproto.CanonicalMIMEHeaderKey`; a key with a byte that is not a
token character is returned unchanged. -/
def CanonicalMIMEHeaderKey (s : Bytes) : Bytes :=
  if s.all validHeaderFieldByte then canonicalLoop true s else s

/-- The map type `http.Header`, as an association list read by first match. -/
abbrev Header := List (Bytes × List Bytes)

/-- The map lookup `h[key]`. -/
def Header.values (h : Header) (key : Bytes) : Option (List Bytes) :=
  (h.find? (fun e => e.1 == key)).map (fun e => e.2)

/-- The method `Header.Set`: replace the values of the canonical key by the one value. -/
def Header.Set (h : Header) (key value : Bytes) : Header :=
  (CanonicalMIMEHeaderKey key, [value]) ::
    h.filter (fun e => !(e.1 == CanonicalMIMEHeaderKey key))

/-- The fields of `url.URL` the package reads or writes. -/
structure URL where
  Path : Bytes
  RawQuery : Bytes
  deriving DecidableEq, Repr

/-- The fields of `retryablehttp.Request` the package reads or writes, and the URL text
the request was built from. `Body` is `none` while no body is set. -/
structure Request where
  Method : Bytes
  target : Bytes
  URL : URL
  Header : Header
  Body : Option Bytes
  deriving DecidableEq, Repr

/-- A response body as a stream: the bytes it delivers, after which it ends (`none`) or
fails with a read error. -/
structure BodyStream where
  data : Bytes
  err : Option Bytes
  deriving DecidableEq, Repr

/-- The call `ioutil.ReadAll`: the read error if the stream fails, else all its bytes, in
a slice the function allocates itself and which is therefore never nil. -/
def ReadAll (body : BodyStream) : Except Bytes Bytes :=
  match body.err with
  | some msg => .error msg
  | none => .ok body.data

/-- The fields of `http.Response` the package reads. -/
structure Response where
  StatusCode : Nat
  Status : Bytes
  Body : BodyStream

/-- An error of the HTTP transport. `permanent` marks the kinds the default retry policy
does not retry: too many redirects, an unsupported scheme, an invalid header, a
certificate that is not trusted. -/
structure TransportError where
  msg : Bytes
  permanent : Bool
  deriving DecidableEq, Repr

/-- The libraries and the network behind the package that are not embedded. -/
structure World where
  /-- The network as the retrying client sees it: what attempt number `i` (from 0) at
  sending a request gives. What a later attempt still carries of a request body that
  an earlier attempt has read is left to this function. -/
  RoundTrip : Nat → Request → Except TransportError Response
  /-- The text `redactURL(req.URL)` of the retrying client's error messages. -/
  redactURL : Request → Bytes
  /-- The call `url.Parse` inside `http.NewRequestWithContext`. -/
  parseURL : Bytes → Except Bytes URL
  /-- The method `url.Values.Encode`. -/
  encodeQuery : List (Bytes × Bytes) → Bytes
  /-- The text `%v` prints for the `float64` of a number literal; `none` when the literal
  is out of range for `float64`, in which case the decoder stores nothing. -/
  formatFloat : Bytes → Option Bytes
  /-- The function `foldName` of the decoder (Unicode simple case folding). -/
  foldName : Bytes → Bytes

/-! ## go-retryablehttp: the client `retryablehttp.NewClient()` -/

/-- The default `RetryMax` of `retryablehttp.NewClient()`. -/
def RetryMax : Nat := 4

/-- The policy `DefaultRetryPolicy` for a context that is not cancelled: retry after a
transport error that is not permanent, after status 429, and after status 0 or 500 and
above other than 501. -/
def shouldRetry : Except TransportError Response → Bool
  | .error e => !e.permanent
  | .ok resp =>
    resp.StatusCode = 429 || resp.StatusCode = 0
      || (decide (resp.StatusCode ≥ 500) && !(resp.StatusCode = 501))

/-- The attempt loop of `Client.Do`: with `remain` retries left, make attempt `i`; stop
when the policy does not ask for a retry or none is left. Gives the last answer and the
number of attempts made. -/
def retryLoop (roundTrip : Nat → Request → Except TransportError Response) (req : Request) :
    Nat → Nat → Except TransportError Response × Nat
  | 0, i => (roundTrip i req, i + 1)
  | remain + 1, i =>
    if shouldRetry (roundTrip i req) then retryLoop roundTrip req remain (i + 1)
    else (roundTrip i req, i + 1)

/-- The method `retryablehttp.Client.Do` with the default policy, retry count and no
`ErrorHandler`: the response of the last attempt when the policy is content with it,
otherwise the error "METHOD URL giving up after N attempt(s)", followed by the transport
error if the last attempt ended in one. -/
def World.Do (w : World) (req : Request) : Except Bytes Response :=
  let r := retryLoop w.RoundTrip req RetryMax 0
  match r.1 with
  | .ok resp =>
    if shouldRetry (.ok resp) then
      .error (req.Method ++ lit " " ++ w.redactURL req ++ lit " giving up after "
        ++ decimal r.2 ++ lit " attempt(s)")
    else .ok resp
  | .error e =>
    .error (req.Method ++ lit " " ++ w.redactURL req ++ lit " giving up after "
      ++ decimal r.2 ++ lit " attempt(s): " ++ e.msg)

/-- The method `retryablehttp.Client.PostForm`: a POST of the encoded form with content
type `application/x-www-form-urlencoded`, sent through `Do`. -/
def World.PostForm (w : World) (url : Bytes) (form : List (Bytes × Bytes)) :
    Except Bytes Response :=
  match w.parseURL url with
  | .error msg => .error msg
  | .ok u =>
    w.Do ⟨lit "POST", url, u,
      [(lit "Content-Type", [lit "application/x-www-form-urlencoded"])],
      some (w.encodeQuery form)⟩

/-- A call the package made to a retrying HTTP client. -/
inductive NetCall where
  | request (req : Request) : NetCall
  | postForm (url : Bytes) (form : List (Bytes × Bytes)) : NetCall

/-- What a function of the package returned, and the network calls it made, in order. -/
structure Outcome (α : Type) where
  result : Except GoError α
  sent : List NetCall

/-! ## client.go -/

/-- The constant `defaultBaseUrl`. -/
def defaultBaseUrl : Bytes := lit "https://uptime.com/api/v1/"

/-- The struct `UptimeClient`; the client `retryablehttp.NewClient()` it holds is
`World.Do`. -/
structure UptimeClient where
  baseUrl : Bytes
  subaccount : Bytes
  token : Bytes
  deriving DecidableEq, Repr

/-- The method constants of net/http. -/
def MethodGet : Bytes := lit "GET"
/-- The constant `http.MethodPost`. -/
def MethodPost : Bytes := lit "POST"
/-- The constant `http.MethodPut`. -/
def MethodPut : Bytes := lit "PUT"
/-- The constant `http.MethodDelete`. -/
def MethodDelete : Bytes := lit "DELETE"

/-- The call `retryablehttp.NewRequestWithContext(ctx, method, url, nil)` for one of the
method constants: fails when the URL does not parse, else a request with empty headers
and no body. -/
def NewRequestWithContext (w : World) (method url : Bytes) : Except GoError Request :=
  match w.parseURL url with
  | .error msg => .error (.external msg)
  | .ok u => .ok ⟨method, url, u, [], none⟩

/-- The method `addRequestHeaders`. -/
def UptimeClient.addRequestHeaders (c : UptimeClient) (req : Request) : Request :=
  let h1 := req.Header.Set (lit "Authorization") (lit "Token " ++ c.token)
  let h2 := if c.subaccount ≠ [] then h1.Set (lit "X-Subaccount") c.subaccount else h1
  let h3 := h2.Set (lit "User-Agent") (lit "go-uptime")
  let h4 := h3.Set (lit "Accept") (lit "application/json")
  let h5 :=
    if req.Method = MethodPost ∨ req.Method = MethodPut ∨ req.Method = MethodDelete then
      h4.Set (lit "Content-type") (lit "application/json")
    else h4
  { req with Header := h5 }

/-- The statement `if body != nil { req.Body = ... }` at the head of `do`. -/
def Request.withBody (req : Request) (body : Option Bytes) : Request :=
  match body with
  | some b => { req with Body := some b }
  | none => req

/-- The message of the error `do` makes for a status of 400 or more. -/
def requestFailedMessage (req : Request) (response : Response) (responseBody : Bytes) :
    Bytes :=
  let errorMessage := lit "error sending " ++ req.Method ++ lit " request to "
    ++ req.URL.Path ++ lit ": " ++ response.Status ++ lit "."
  if responseBody.length ≠ 0 then errorMessage ++ lit " response body: " ++ responseBody
  else errorMessage

/-- The method `do`: on success the bytes read from the response, a non-nil slice. -/
def UptimeClient.do (w : World) (c : UptimeClient) (req : Request) (body : Option Bytes) :
    Outcome (Option Bytes) :=
  let req2 := c.addRequestHeaders (req.withBody body)
  { sent := [.request req2],
    result :=
      match w.Do req2 with
      | .error msg => .error (.errorf (lit "error sending request: " ++ msg))
      | .ok response =>
        if response.StatusCode = 401 ∨ response.StatusCode = 403 then
          .error (.errorf (lit "token authentication failed"))
        else
          match ReadAll response.Body with
          | .error msg => .error (.external msg)
          | .ok responseBody =>
            if response.StatusCode ≥ 400 then
              .error (.errorf (requestFailedMessage req2 response responseBody))
            else .ok (some responseBody) }

/-- The method `getRaw`; `params` is `none` for a nil map. -/
def UptimeClient.getRaw (w : World) (c : UptimeClient) (path : Bytes)
    (params : Option (List (Bytes × Bytes))) : Outcome (Option Bytes) :=
  match NewRequestWithContext w MethodGet (c.baseUrl ++ path) with
  | .error e => ⟨.error e, []⟩
  | .ok request =>
    let request1 := match params with
      | some ps => { request with URL := { request.URL with RawQuery := w.encodeQuery ps } }
      | none => request
    c.do w request1 none

/-- The method `get`, with the destination given by how a document is stored into it.
`json.Unmarshal` is applied to the bytes `getRaw` returned. -/
def UptimeClient.get {α : Type} (w : World) (c : UptimeClient) (path : Bytes)
    (store : Json → Except GoError α) (params : Option (List (Bytes × Bytes))) :
    Outcome α :=
  let r := c.getRaw w path params
  match r.result with
  | .error e => ⟨.error e, r.sent⟩
  | .ok body => ⟨Unmarshal store (body.getD []), r.sent⟩

/-- The method `post` for a `CheckTag` payload. -/
def UptimeClient.post (w : World) (c : UptimeClient) (path : Bytes) (requestBody : CheckTag) :
    Outcome (Option Bytes) :=
  let payload := requestBody.Marshal
  match NewRequestWithContext w MethodPost (c.baseUrl ++ path) with
  | .error e => ⟨.error e, []⟩
  | .ok request => c.do w request (some payload)

/-- The method `put` for a `CheckTag` payload. -/
def UptimeClient.put (w : World) (c : UptimeClient) (path : Bytes) (requestBody : CheckTag) :
    Outcome Unit :=
  let payload := requestBody.Marshal
  match NewRequestWithContext w MethodPut (c.baseUrl ++ path) with
  | .error e => ⟨.error e, []⟩
  | .ok request =>
    let r := c.do w request (some payload)
    ⟨r.result.map (fun _ => ()), r.sent⟩

/-- The method `delete`; `requestBody` is `none` for a nil interface. -/
def UptimeClient.delete (w : World) (c : UptimeClient) (path : Bytes)
    (requestBody : Option CheckTag) : Outcome Unit :=
  let payload := requestBody.map CheckTag.Marshal
  match NewRequestWithContext w MethodDelete (c.baseUrl ++ path) with
  | .error e => ⟨.error e, []⟩
  | .ok request =>
    let r := c.do w request payload
    ⟨r.result.map (fun _ => ()), r.sent⟩

/-! ## fmt and the credential exchange -/

/-- Byte-wise lexicographic order on Go strings (`<`). -/
def bytesLt : Bytes → Bytes → Bool
  | [], [] => false
  | [], _ :: _ => true
  | _ :: _, [] => false
  | a :: as, b :: bs => if a < b then true else if b < a then false else bytesLt as bs

/-- Put a map entry into a key-sorted entry list, replacing an entry with the same key. -/
def insertEntry (k v : Bytes) : List (Bytes × Bytes) → List (Bytes × Bytes)
  | [] => [(k, v)]
  | (k1, v1) :: rest =>
    if k = k1 then (k, v) :: rest
    else if bytesLt k k1 then (k, v) :: (k1, v1) :: rest
    else (k1, v1) :: insertEntry k v rest

/-- Items separated by single spaces. -/
def joinSpace : List Bytes → Bytes
  | [] => []
  | [x] => x
  | x :: y :: rest => x ++ [32] ++ joinSpace (y :: rest)

mutual
/-- What `fmt.Sprintf("%v", x)` prints for the `interface{}` value the decoder makes of
a document: `<nil>` for null, the text of booleans, numbers and strings, `[a b]` for a
slice, `map[k:v]` with sorted keys for a map (a later duplicate key replaces an earlier
one). -/
def sprintV (formatFloat : Bytes → Option Bytes) : Json → Bytes
  | .null => lit "<nil>"
  | .bool true => lit "true"
  | .bool false => lit "false"
  | .num text => (formatFloat text).getD (lit "<nil>")
  | .str s => s
  | .arr xs => [91] ++ joinSpace (sprintElems formatFloat xs) ++ [93]
  | .obj kvs =>
    lit "map[" ++ joinSpace (((sprintMembers formatFloat kvs).foldl
      (fun m e => insertEntry e.1 e.2 m) []).map (fun e => e.1 ++ [58] ++ e.2)) ++ [93]
/-- The texts of the elements of a slice. -/
def sprintElems (formatFloat : Bytes → Option Bytes) : List Json → List Bytes
  | [] => []
  | x :: xs => sprintV formatFloat x :: sprintElems formatFloat xs
/-- The keys of a map with the texts of their values, in input order. -/
def sprintMembers (formatFloat : Bytes → Option Bytes) :
    List (Bytes × Json) → List (Bytes × Bytes)
  | [] => []
  | (k, v) :: kvs => (k, sprintV formatFloat v) :: sprintMembers formatFloat kvs
end

/-- The map index `res[key]` after decoding an object: the value of the last member with
that key. -/
def lookupLast (key : Bytes) (kvs : List (Bytes × Json)) : Option Json :=
  (kvs.reverse.find? (fun e => e.1 == key)).map (fun e => e.2)

/-- The lines `var res map[string]interface{}; json.NewDecoder(resp.Body).Decode(&res);
fmt.Sprintf("%v", res["access_token"])`. The decoder reads the first JSON value of the
stream, from the bytes the stream delivers; `res` becomes a map only when that value is an
object, and stays nil when the value is incomplete, has a syntax error, or is null or any
other value. The error of `Decode` is dropped. -/
def accessTokenText (w : World) (resp : Response) : Bytes :=
  match parseValue (resp.Body.data.length + 1) 0 resp.Body.data with
  | some (.obj kvs, _) =>
    match lookupLast (lit "access_token") kvs with
    | some v => sprintV w.formatFloat v
    | none => lit "<nil>"
  | _ => lit "<nil>"

/-- The function `credentialToToken`. -/
def credentialToToken (w : World) (baseUrl email password : Bytes) : Outcome Bytes :=
  let form := [(lit "email", email), (lit "password", password)]
  { sent := [.postForm (baseUrl ++ lit "auth/login/") form],
    result :=
      match w.PostForm (baseUrl ++ lit "auth/login/") form with
      | .error msg => .error (.errorf (lit "credentials to token failed: " ++ msg))
      | .ok resp => .ok (accessTokenText w resp) }

/-- The function `NewClient`. -/
def NewClient (w : World) (baseUrl subaccount token email password : Bytes) :
    Outcome UptimeClient :=
  let baseUrl1 := if baseUrl = [] then defaultBaseUrl else baseUrl
  if token = [] then
    if email ≠ [] ∧ password ≠ [] then
      let r := credentialToToken w baseUrl1 email password
      match r.result with
      | .error err => ⟨.error err, r.sent⟩
      | .ok t => ⟨.ok ⟨baseUrl1, subaccount, t⟩, r.sent⟩
    else ⟨.error (.errorf (lit "no credentials provided")), []⟩
  else ⟨.ok ⟨baseUrl1, subaccount, token⟩, []⟩

/-! ## checktag.go -/

/-- How a call ended: it returned a value, or it panicked on a nil pointer dereference. -/
inductive Ending (α : Type) where
  | returned (v : α) : Ending α
  | nilDereference : Ending α

/-- The method `NewCheckTag`: the pair `(pk, err)` it returns, `err` being `none` for a
nil error, and the calls it made. -/
def UptimeClient.NewCheckTag (w : World) (c : UptimeClient) (checkTag : CheckTag) :
    (Nat × Option GoError) × List NetCall :=
  let tag : CheckTag := { CheckTag.zero with Name := checkTag.Name, ColorHex := checkTag.ColorHex }
  let r := c.post w (lit "check-tags/") tag
  match r.result with
  | .error err => ((0, some err), r.sent)
  | .ok none => ((0, some (.errorf (lit "no response body"))), r.sent)
  | .ok (some res) =>
    match Unmarshal (fun j => CheckTagPostResult.decode w.foldName j
        ⟨0, none, none, CheckTag.zero⟩) res with
    | .error err => ((0, some err), r.sent)
    | .ok result => ((result.Results.Pk, none), r.sent)

/-- The method `GetCheckTag`: a nil or non-nil `*CheckTag`, or an error. -/
def UptimeClient.GetCheckTag (w : World) (c : UptimeClient) (pk : Nat) :
    Outcome (Option CheckTag) :=
  c.get w (lit "check-tags/" ++ decimal pk)
    (fun j => CheckTag.decodePtr w.foldName j none) none

/-- The method `GetCheckTags`. The field read `checkTags.Results` dereferences the
pointer the decoder filled in. -/
def UptimeClient.GetCheckTags (w : World) (c : UptimeClient) :
    Ending (Except GoError (List CheckTag)) × List NetCall :=
  let r := c.get w (lit "check-tags/") (fun j => CheckTagListResult.decodePtr w.foldName j) none
  match r.result with
  | .error err => (.returned (.error err), r.sent)
  | .ok none => (.nilDereference, r.sent)
  | .ok (some checkTags) => (.returned (.ok checkTags.Results.elems), r.sent)

/-- The method `UpdateCheckTag`. -/
def UptimeClient.UpdateCheckTag (w : World) (c : UptimeClient) (checkTag : CheckTag) :
    Outcome Unit :=
  let tag : CheckTag := { CheckTag.zero with Name := checkTag.Name, ColorHex := checkTag.ColorHex }
  c.put w (lit "check-tags/" ++ decimal checkTag.Pk) tag

/-- The method `DeleteCheckTag`. -/
def UptimeClient.DeleteCheckTag (w : World) (c : UptimeClient) (pk : Nat) : Outcome Unit :=
  c.delete w (lit "check-tags/" ++ decimal pk) none

/-! ## Stub transports -/

/-- ASCII upper-casing, the effect of `foldName` on ASCII keys. -/
def asciiFold (s : Bytes) : Bytes := s.map (fun c => if 97 ≤ c ∧ c ≤ 122 then c - 32 else c)

/-- A URL parser for `https://uptime.com` addresses without a query: the path is what
follows the host. An address with a control byte, as `url.Parse` refuses it, and any
other address is refused. -/
def stubParseURL (u : Bytes) : Except Bytes URL :=
  if u.any (fun c => decide (c < 32) || c = 127) then
    .error (lit "net/url: invalid control character in URL")
  else if (lit "https://uptime.com/").isPrefixOf u then .ok ⟨u.drop 18, []⟩
  else .error (lit "parse error")

/-- A world whose transport answers every attempt at every request, the login form
included, with one fixed response. -/
def stubWorld (statusCode : Nat) (status : Bytes) (body : Bytes) : World where
  RoundTrip := fun _ _ => .ok ⟨statusCode, status, ⟨body, none⟩⟩
  redactURL := fun req => req.target
  parseURL := stubParseURL
  encodeQuery := fun _ => []
  formatFloat := fun text => if text = [] then none else some text
  foldName := asciiFold

/-- A world whose transport answers every attempt with a response whose body stream
fails with `msg` before delivering a byte. -/
def brokenBodyWorld (statusCode : Nat) (status : Bytes) (msg : Bytes) : World where
  RoundTrip := fun _ _ => .ok ⟨statusCode, status, ⟨[], some msg⟩⟩
  redactURL := fun req => req.target
  parseURL := stubParseURL
  encodeQuery := fun _ => []
  formatFloat := fun text => if text = [] then none else some text
  foldName := asciiFold

/-- A client of the default endpoint with token `t0`. -/
def stubClient : UptimeClient := ⟨defaultBaseUrl, [], lit "t0"⟩

/-- The error `do` returns for status 401 and 403. -/
def AuthenticationFailed : GoError := .errorf (lit "token authentication failed")

/-- A GET request for the tag collection of the default endpoint, before `do`. -/
def stubRequest : Request :=
  ⟨MethodGet, defaultBaseUrl ++ lit "check-tags/", ⟨lit "/api/v1/check-tags/", []⟩, [], none⟩

/-- The header keys `addRequestHeaders` may write, in canonical form. -/
def managedHeaderKeys : List Bytes :=
  [lit "Authorization", lit "X-Subaccount", lit "User-Agent", lit "Accept", lit "Content-Type"]

/-- The error `NewCheckTag` makes when `post` hands it a nil slice. -/
def EmptyResponse : GoError := .errorf (lit "no response body")

/-- The text `appendString` writes for one rune of a valid UTF-8 string. -/
def runeText (r : Nat) : Bytes :=
  if r < 0x80 then (if htmlSafe r then [r] else escapeByte r)
  else if r = 0x2028 ∨ r = 0x2029 then lit "\\u202" ++ [hexDigit (r % 16)]
  else EncodeRune r

/-- The loop of the conversion `string([]rune(s))`: every rune of `s` decoded and encoded
again, so that each byte that is not part of a valid encoding becomes U+FFFD. -/
def toValidUTF8Body : Nat → Bytes → Bytes
  | 0, _ => []
  | _ + 1, [] => []
  | fuel + 1, b :: rest =>
    if b < RuneSelf then b :: toValidUTF8Body fuel rest
    else
      let d := DecodeRune (b :: rest)
      EncodeRune d.1 ++ toValidUTF8Body fuel (rest.drop (d.2 - 1))

/-- The string `s` with each byte that is not part of valid UTF-8 replaced by U+FFFD
(bytes EF BF BD). -/
def toValidUTF8 (s : Bytes) : Bytes := toValidUTF8Body s.length s

/-! ## Documents the encoder writes -/

mutual
/-- A document whose strings and keys are valid UTF-8 and whose numbers are decimal
naturals: the documents `json.Marshal` writes for the types of this package. -/
def Json.plain : Json → Prop
  | .null => True
  | .bool _ => True
  | .num text => ∃ n, text = decimal n
  | .str s => ValidUTF8 s
  | .arr xs => Json.plainElems xs
  | .obj kvs => Json.plainMembers kvs
/-- All elements are plain. -/
def Json.plainElems : List Json → Prop
  | [] => True
  | x :: xs => Json.plain x ∧ Json.plainElems xs
/-- All keys are valid UTF-8 and all values plain. -/
def Json.plainMembers : List (Bytes × Json) → Prop
  | [] => True
  | (k, v) :: kvs => ValidUTF8 k ∧ Json.plain v ∧ Json.plainMembers kvs
end

mutual
/-- Number of parser calls a document takes. -/
def Json.need : Json → Nat
  | .null => 1
  | .bool _ => 1
  | .num _ => 1
  | .str _ => 1
  | .arr xs => 1 + Json.needElems xs
  | .obj kvs => 1 + Json.needMembers kvs
/-- Parser calls for the elements of an array. -/
def Json.needElems : List Json → Nat
  | [] => 0
  | x :: xs => 1 + Json.need x + Json.needElems xs
/-- Parser calls for the members of an object. -/
def Json.needMembers : List (Bytes × Json) → Nat
  | [] => 0
  | (_, v) :: kvs => 1 + Json.need v + Json.needMembers kvs
end

mutual
/-- Nesting depth of arrays and objects. -/
def Json.nest : Json → Nat
  | .null => 0
  | .bool _ => 0
  | .num _ => 0
  | .str _ => 0
  | .arr xs => 1 + Json.nestElems xs
  | .obj kvs => 1 + Json.nestMembers kvs
/-- Greatest nesting depth among the elements. -/
def Json.nestElems : List Json → Nat
  | [] => 0
  | x :: xs => max (Json.nest x) (Json.nestElems xs)
/-- Greatest nesting depth among the member values. -/
def Json.nestMembers : List (Bytes × Json) → Nat
  | [] => 0
  | (_, v) :: kvs => max (Json.nest v) (Json.nestMembers kvs)
end

/-- A byte that begins a value in compact text. -/
def isStart (c : Nat) : Bool :=
  c = 123 || c = 91 || c = 34 || c = 116 || c = 102 || c = 110 || isDigit c

/-- The JSON of a `*uint`: null for nil. -/
def optUint : Option Nat → Json
  | none => .null
  | some n => .num (decimal n)

/-- The four members of the list envelope `{count, next, previous, results: [t1..tn]}`. -/
def envelopeMembers (count : Nat) (next previous : Option Nat) (ts : List CheckTag) :
    List (Bytes × Json) :=
  [(lit "count", .num (decimal count)), (lit "next", optUint next),
    (lit "previous", optUint previous), (lit "results", .arr (ts.map CheckTag.toJson))]

/-- The same envelope as a server may write it: members in another order, white space
between the tokens. -/
def spacedBody : Bytes :=
  lit ("\x7b \"results\" : [ \x7b\"tag\": \"a\", \"pk\": 1, \"color_hex\": \"#fff\"\x7d ,\n"
    ++ "  \x7b\"color_hex\":\"#000\",\"tag\":\"b\",\"pk\":2\x7d ],\n"
    ++ " \"previous\": null, \"count\": 2, \"next\": null \x7d\n")

/-- The body of the list scenario: two records, no next or previous page. -/
def scenarioBody : Bytes :=
  lit ("\x7b\"count\":2,\"next\":null,\"previous\":null,\"results\":["
    ++ "\x7b\"pk\":1,\"tag\":\"a\",\"color_hex\":\"#fff\"\x7d,"
    ++ "\x7b\"pk\":2,\"tag\":\"b\",\"color_hex\":\"#000\"\x7d]\x7d")

/-- A list body with one record whose tag is written with a `\u` surrogate pair. -/
def escapedBody : Bytes :=
  lit ("\x7b\"count\":1,\"next\":null,\"previous\":null,\"results\":["
    ++ "\x7b\"pk\":3,\"tag\":\"\\ud83d\\ude00\",\"color_hex\":\"#fff\"\x7d]\x7d")

/-! # Properties -/

set_option maxRecDepth 100000

theorem DecodeRune_EncodeRune (r : Nat) (hr : validRune r = true) (t : Bytes) :
    DecodeRune (EncodeRune r ++ t) = (r, (EncodeRune r).length) := by
  simp only [validRune, Bool.or_eq_true, Bool.and_eq_true, decide_eq_true_eq] at hr
  unfold EncodeRune
  by_cases h1 : r < 0x80
  · simp [h1, DecodeRune]
  · by_cases h2 : r < 0x800
    · simp only [h1, h2, if_false, if_true, List.cons_append, List.nil_append, DecodeRune,
        isCont]
      have a1 : ¬ (0xC0 + r / 64 < 0x80) := by omega
      have a2 : ¬ (0xC0 + r / 64 < 0xC2) := by omega
      have a3 : 0xC0 + r / 64 < 0xE0 := by omega
      simp only [a1, a2, a3, if_false, if_true]
      have a4 : 0x80 ≤ 0x80 + r % 64 := by omega
      have a5 : 0x80 + r % 64 ≤ 0xBF := by omega
      simp only [a4, a5, decide_True, Bool.and_self, if_true, List.length_cons,
        List.length_nil, Prod.mk.injEq, and_true]
      omega
    · have hv : validRune r = true := by
        simp only [validRune, Bool.or_eq_true, Bool.and_eq_true, decide_eq_true_eq]; exact hr
      by_cases h3 : r < 0x10000
      · simp only [h1, h2, h3, hv, if_false, if_true, List.cons_append, List.nil_append,
          DecodeRune, isCont]
        have a1 : ¬ (0xE0 + r / 4096 < 0x80) := by omega
        have a2 : ¬ (0xE0 + r / 4096 < 0xC2) := by omega
        have a3 : ¬ (0xE0 + r / 4096 < 0xE0) := by omega
        have a4 : 0xE0 + r / 4096 < 0xF0 := by omega
        simp only [a1, a2, a3, a4, if_false, if_true]
        have b1 : ¬ (0x80 + r / 64 % 64 < (if 0xE0 + r / 4096 = 0xE0 then 0xA0 else 0x80) ∨
            (if 0xE0 + r / 4096 = 0xED then 0x9F else 0xBF) < 0x80 + r / 64 % 64) := by
          split_ifs <;> omega
        have b2 : 0x80 ≤ 0x80 + r % 64 := by omega
        have b3 : 0x80 + r % 64 ≤ 0xBF := by omega
        simp only [b1, b2, b3, decide_True, Bool.and_self, if_false, if_true,
          List.length_cons, List.length_nil, Prod.mk.injEq, and_true]
        omega
      · simp only [h1, h2, h3, hv, if_false, if_true, List.cons_append, List.nil_append,
          DecodeRune, isCont]
        have a1 : ¬ (0xF0 + r / 262144 < 0x80) := by omega
        have a2 : ¬ (0xF0 + r / 262144 < 0xC2) := by omega
        have a3 : ¬ (0xF0 + r / 262144 < 0xE0) := by omega
        have a4 : ¬ (0xF0 + r / 262144 < 0xF0) := by omega
        have a5 : 0xF0 + r / 262144 < 0xF5 := by omega
        simp only [a1, a2, a3, a4, a5, if_false, if_true]
        have b1 : ¬ (0x80 + r / 4096 % 64 <
              (if 0xF0 + r / 262144 = 0xF0 then 0x90 else 0x80) ∨
            (if 0xF0 + r / 262144 = 0xF4 then 0x8F else 0xBF) < 0x80 + r / 4096 % 64) := by
          split_ifs <;> omega
        have b2 : 0x80 ≤ 0x80 + r / 64 % 64 := by omega
        have b3 : 0x80 + r / 64 % 64 ≤ 0xBF := by omega
        have b4 : 0x80 ≤ 0x80 + r % 64 := by omega
        have b5 : 0x80 + r % 64 ≤ 0xBF := by omega
        simp only [b1, b2, b3, b4, b5, decide_True, Bool.and_self, if_false, if_true,
          List.length_cons, List.length_nil, Prod.mk.injEq, and_true]
        omega



/-! ## Transport core -/

/-- A first answer the retry policy is content with is what `Do` returns. -/
theorem Do_first_answer (w : World) (req : Request) (resp : Response)
    (h : w.RoundTrip 0 req = .ok resp) (hs : shouldRetry (.ok resp) = false) :
    w.Do req = .ok resp := by
  simp [World.Do, RetryMax, retryLoop, h, hs]

/-- A response that `Do` returns is one the retry policy is content with. -/
theorem Do_ok_not_retried (w : World) (req : Request) (resp : Response)
    (h : w.Do req = .ok resp) : shouldRetry (.ok resp) = false := by
  unfold World.Do at h
  simp only at h
  split at h
  · rename_i r hr
    split at h
    · cases h
    · rename_i hnot
      cases h
      simpa using hnot
  · cases h

theorem not_retried_401_403 (resp : Response)
    (h : resp.StatusCode = 401 ∨ resp.StatusCode = 403) : shouldRetry (.ok resp) = false := by
  rcases h with h | h <;> simp [shouldRetry, h]

theorem do_auth_failed (w : World) (c : UptimeClient) (req : Request) (body : Option Bytes)
    (hw : ∀ i r, ∃ resp, w.RoundTrip i r = .ok resp
      ∧ (resp.StatusCode = 401 ∨ resp.StatusCode = 403)) :
    (c.do w req body).result = .error AuthenticationFailed := by
  unfold UptimeClient.do
  simp only
  obtain ⟨resp, h1, h2⟩ := hw 0 (c.addRequestHeaders (req.withBody body))
  rw [Do_first_answer w _ resp h1 (not_retried_401_403 resp h2)]
  simp only [h2, if_true]
  rfl

/-- C1. Against a transport that answers every attempt at every request with status 401
or 403, whatever the response body, each of GetCheckTag, GetCheckTags, NewCheckTag,
UpdateCheckTag and DeleteCheckTag returns the error "token authentication failed", for
every key and record, provided the URL the operation builds (the base URL followed by
`check-tags/` or `check-tags/<pk>`) parses, so that a request is made at all. -/
theorem auth_failed_every_operation (w : World) (c : UptimeClient) (pk : Nat) (t : CheckTag)
    (hw : ∀ i r, ∃ resp, w.RoundTrip i r = .ok resp
      ∧ (resp.StatusCode = 401 ∨ resp.StatusCode = 403))
    (hlist : ∃ u, w.parseURL (c.baseUrl ++ lit "check-tags/") = .ok u)
    (hpk : ∃ u, w.parseURL (c.baseUrl ++ (lit "check-tags/" ++ decimal pk)) = .ok u)
    (htag : ∃ u, w.parseURL (c.baseUrl ++ (lit "check-tags/" ++ decimal t.Pk)) = .ok u) :
    (c.GetCheckTag w pk).result = .error AuthenticationFailed
    ∧ (c.GetCheckTags w).1 = .returned (.error AuthenticationFailed)
    ∧ (c.NewCheckTag w t).1 = (0, some AuthenticationFailed)
    ∧ (c.UpdateCheckTag w t).result = .error AuthenticationFailed
    ∧ (c.DeleteCheckTag w pk).result = .error AuthenticationFailed := by
  obtain ⟨u1, hu1⟩ := hlist
  obtain ⟨u2, hu2⟩ := hpk
  obtain ⟨u3, hu3⟩ := htag
  refine ⟨?_, ?_, ?_, ?_, ?_⟩
  · simp only [UptimeClient.GetCheckTag, UptimeClient.get, UptimeClient.getRaw,
      NewRequestWithContext, hu2, do_auth_failed w c _ _ hw]
  · simp only [UptimeClient.GetCheckTags, UptimeClient.get, UptimeClient.getRaw,
      NewRequestWithContext, hu1, do_auth_failed w c _ _ hw]
  · simp only [UptimeClient.NewCheckTag, UptimeClient.post, NewRequestWithContext, hu1,
      do_auth_failed w c _ _ hw]
  · simp only [UptimeClient.UpdateCheckTag, UptimeClient.put, NewRequestWithContext, hu3,
      do_auth_failed w c _ _ hw]
    rfl
  · simp only [UptimeClient.DeleteCheckTag, UptimeClient.delete, NewRequestWithContext, hu2,
      do_auth_failed w c _ _ hw]
    rfl

/-- C1, at a stub transport answering 401 with body "boom". -/
theorem auth_failed_every_operation_witness :
    (stubClient.GetCheckTag (stubWorld 401 (lit "401 Unauthorized") (lit "boom")) 7).result
      = .error AuthenticationFailed
    ∧ (stubClient.GetCheckTags (stubWorld 401 (lit "401 Unauthorized") (lit "boom"))).1
      = .returned (.error AuthenticationFailed)
    ∧ (stubClient.NewCheckTag (stubWorld 401 (lit "401 Unauthorized") (lit "boom"))
        ⟨3, lit "u", lit "a", lit "#fff"⟩).1 = (0, some AuthenticationFailed)
    ∧ (stubClient.UpdateCheckTag (stubWorld 401 (lit "401 Unauthorized") (lit "boom"))
        ⟨3, lit "u", lit "a", lit "#fff"⟩).result = .error AuthenticationFailed
    ∧ (stubClient.DeleteCheckTag (stubWorld 401 (lit "401 Unauthorized") (lit "boom")) 7).result
      = .error AuthenticationFailed :=
  auth_failed_every_operation (stubWorld 401 (lit "401 Unauthorized") (lit "boom")) stubClient 7
    ⟨3, lit "u", lit "a", lit "#fff"⟩ (fun _ _ => ⟨_, rfl, Or.inl rfl⟩)
    ⟨_, rfl⟩ ⟨_, rfl⟩ ⟨_, rfl⟩

/-- C2 fails as stated. At status 500 with body "boom" the retrying client gives up
after 5 attempts and `do` returns "error sending request: GET <url> giving up after 5
attempt(s)", a message with neither the status line nor "boom" in it. At status 404 with
a body that cannot be read `do` returns the bare read error. -/
theorem do_gives_up_on_500 :
    (stubClient.do (stubWorld 500 (lit "500 Internal Server Error") (lit "boom"))
        stubRequest none).result
      = .error (.errorf (lit ("error sending request: GET "
          ++ "https://uptime.com/api/v1/check-tags/ giving up after 5 attempt(s)")))
    ∧ ¬ (lit "boom" <:+: lit ("error sending request: GET "
          ++ "https://uptime.com/api/v1/check-tags/ giving up after 5 attempt(s)"))
    ∧ ¬ (lit "500 Internal Server Error" <:+: lit ("error sending request: GET "
          ++ "https://uptime.com/api/v1/check-tags/ giving up after 5 attempt(s)"))
    ∧ (stubClient.do (brokenBodyWorld 404 (lit "404 Not Found") (lit "unexpected EOF"))
        stubRequest none).result = .error (.external (lit "unexpected EOF")) :=
  ⟨rfl, by decide, by decide, rfl⟩

/-- C2, amended. When the retrying client hands `do` a response (which it does for no
status 429 and no status 500 and above other than 501: there it gives up with an error)
with a status of 400 or more other than 401 and 403 and a body that can be read, `do`
returns no body and the error made by `fmt.Errorf` whose message is "error sending M
request to P: S." for the method M, URL path P and status line S, followed by " response
body: " and the body exactly when the body is not empty. -/
theorem do_request_failed (w : World) (c : UptimeClient) (req : Request)
    (body : Option Bytes) (resp : Response) (responseBody : Bytes)
    (hw : w.Do (c.addRequestHeaders (req.withBody body)) = .ok resp)
    (h400 : resp.StatusCode ≥ 400) (h401 : resp.StatusCode ≠ 401)
    (h403 : resp.StatusCode ≠ 403) (hbody : ReadAll resp.Body = .ok responseBody) :
    (∃ msg, (c.do w req body).result = .error (.errorf msg)
      ∧ req.Method <:+: msg ∧ req.URL.Path <:+: msg ∧ resp.Status <:+: msg
      ∧ (responseBody ≠ [] → msg = lit "error sending " ++ req.Method ++ lit " request to "
          ++ req.URL.Path ++ lit ": " ++ resp.Status ++ lit "." ++ lit " response body: "
          ++ responseBody ∧ responseBody <:+: msg)
      ∧ (responseBody = [] → msg = lit "error sending " ++ req.Method ++ lit " request to "
          ++ req.URL.Path ++ lit ": " ++ resp.Status ++ lit "."))
    ∧ resp.StatusCode ≠ 429 ∧ (resp.StatusCode < 500 ∨ resp.StatusCode = 501) := by
  have hm : (c.addRequestHeaders (req.withBody body)).Method = req.Method := by
    cases body <;> rfl
  have hp : (c.addRequestHeaders (req.withBody body)).URL = req.URL := by
    cases body <;> rfl
  have hnr := Do_ok_not_retried w _ resp hw
  refine ⟨⟨requestFailedMessage (c.addRequestHeaders (req.withBody body)) resp responseBody,
    ?_, ?_⟩, ?_, ?_⟩
  · simp only [UptimeClient.do, hw, hbody]
    have : ¬ (resp.StatusCode = 401 ∨ resp.StatusCode = 403) := by
      rintro (h | h)
      · exact h401 h
      · exact h403 h
    simp only [this, if_false, h400, if_true]
  · simp only [requestFailedMessage, hm, hp]
    by_cases hb : responseBody = []
    · subst hb
      simp only [List.length_nil, ne_eq, not_true_eq_false, if_false, false_implies,
        true_implies, and_true, true_and]
      refine ⟨?_, ?_, ?_⟩
      · exact ⟨lit "error sending ", lit " request to " ++ req.URL.Path ++ lit ": "
          ++ resp.Status ++ lit ".", by simp only [List.append_assoc]⟩
      · exact ⟨lit "error sending " ++ req.Method ++ lit " request to ", lit ": "
          ++ resp.Status ++ lit ".", by simp only [List.append_assoc]⟩
      · exact ⟨lit "error sending " ++ req.Method ++ lit " request to " ++ req.URL.Path
          ++ lit ": ", lit ".", by simp only [List.append_assoc]⟩
    · have hl : responseBody.length ≠ 0 := by
        intro h; exact hb (List.length_eq_zero.mp h)
      simp only [hl, ne_eq, not_false_eq_true, if_true, hb, true_implies, false_implies,
        and_true, true_and]
      refine ⟨?_, ?_, ?_, ?_⟩
      · exact ⟨lit "error sending ", lit " request to " ++ req.URL.Path ++ lit ": "
          ++ resp.Status ++ lit "." ++ lit " response body: " ++ responseBody,
          by simp only [List.append_assoc]⟩
      · exact ⟨lit "error sending " ++ req.Method ++ lit " request to ", lit ": "
          ++ resp.Status ++ lit "." ++ lit " response body: " ++ responseBody,
          by simp only [List.append_assoc]⟩
      · exact ⟨lit "error sending " ++ req.Method ++ lit " request to " ++ req.URL.Path
          ++ lit ": ", lit "." ++ lit " response body: " ++ responseBody,
          by simp only [List.append_assoc]⟩
      · exact ⟨lit "error sending " ++ req.Method ++ lit " request to " ++ req.URL.Path
          ++ lit ": " ++ resp.Status ++ lit "." ++ lit " response body: ", [],
          by simp only [List.append_assoc, List.append_nil]⟩
  · intro h429
    simp [shouldRetry, h429] at hnr
  · simp only [shouldRetry, Bool.or_eq_false_iff, decide_eq_false_iff_not,
      Bool.and_eq_false_iff, Bool.not_eq_false', decide_eq_true_eq] at hnr
    omega

/-- C2 amended, at status 404 with body "boom". -/
theorem do_request_failed_witness :
    (∃ msg, (stubClient.do (stubWorld 404 (lit "404 Not Found") (lit "boom"))
        stubRequest none).result = .error (.errorf msg)
      ∧ lit "GET" <:+: msg ∧ lit "/api/v1/check-tags/" <:+: msg
      ∧ lit "404 Not Found" <:+: msg
      ∧ (lit "boom" ≠ [] → msg = lit "error sending " ++ lit "GET" ++ lit " request to "
          ++ lit "/api/v1/check-tags/" ++ lit ": " ++ lit "404 Not Found"
          ++ lit "." ++ lit " response body: " ++ lit "boom" ∧ lit "boom" <:+: msg)
      ∧ (lit "boom" = [] → msg = lit "error sending " ++ lit "GET" ++ lit " request to "
          ++ lit "/api/v1/check-tags/" ++ lit ": " ++ lit "404 Not Found"
          ++ lit "."))
    ∧ (404 : Nat) ≠ 429 ∧ ((404 : Nat) < 500 ∨ (404 : Nat) = 501) :=
  do_request_failed (stubWorld 404 (lit "404 Not Found") (lit "boom")) stubClient
    stubRequest none ⟨404, lit "404 Not Found", ⟨lit "boom", none⟩⟩ (lit "boom")
    rfl (by decide) (by decide) (by decide) rfl

/-- C3. With an empty token and an empty email or an empty password, `NewClient` returns
the error "no credentials provided" and makes no network call, for every base URL and
subaccount and whatever the network would answer. -/
theorem NewClient_no_credentials (w : World) (baseUrl subaccount email password : Bytes)
    (h : email = [] ∨ password = []) :
    (NewClient w baseUrl subaccount [] email password).result
        = .error (.errorf (lit "no credentials provided"))
      ∧ (NewClient w baseUrl subaccount [] email password).sent = [] := by
  have hn : ¬ (email ≠ [] ∧ password ≠ []) := by
    rintro ⟨h1, h2⟩
    rcases h with h | h
    · exact h1 h
    · exact h2 h
  simp only [NewClient, if_true, hn, if_false, and_self]

/-- C3, with token, email and password all empty. -/
theorem NewClient_no_credentials_witness :
    (NewClient (stubWorld 200 (lit "200 OK") (lit "x")) [] [] [] [] []).result
        = .error (.errorf (lit "no credentials provided"))
      ∧ (NewClient (stubWorld 200 (lit "200 OK") (lit "x")) [] [] [] [] []).sent = [] :=
  NewClient_no_credentials (stubWorld 200 (lit "200 OK") (lit "x")) [] [] [] [] (Or.inl rfl)

/-! ## Header injection -/

theorem values_filter_ne (h : Header) (k k1 : Bytes) (hne : k1 ≠ k) :
    Header.values (h.filter (fun e => !(e.1 == k))) k1 = Header.values h k1 := by
  induction h with
  | nil => rfl
  | cons e rest ih =>
    unfold Header.values at ih ⊢
    by_cases he : e.1 = k
    · have h2 : ¬ (e.1 = k1) := fun h => hne (h.symm.trans he)
      simp only [List.filter_cons, he, beq_self_eq_true, Bool.not_true, Bool.false_eq_true,
        if_false, List.find?_cons]
      have h3 : (k == k1) = false := by
        simp only [beq_eq_false_iff_ne, ne_eq]
        exact fun h => hne h.symm
      simp only [h3]
      exact ih
    · have h1 : (e.1 == k) = false := by simp [he]
      simp only [List.filter_cons, h1, Bool.not_false, if_true, List.find?_cons]
      by_cases hk : e.1 = k1
      · simp [hk]
      · have h2 : (e.1 == k1) = false := by simp [hk]
        simp only [h2]
        exact ih

theorem values_Set (h : Header) (k v k1 : Bytes) :
    Header.values (h.Set k v) k1
      = if k1 = CanonicalMIMEHeaderKey k then some [v] else Header.values h k1 := by
  by_cases hk : k1 = CanonicalMIMEHeaderKey k
  · subst hk
    simp [Header.Set, Header.values]
  · simp only [hk, if_false]
    have h2 : (CanonicalMIMEHeaderKey k == k1) = false := by
      simp only [beq_eq_false_iff_ne, ne_eq]
      exact fun h => hk h.symm
    have := values_filter_ne h (CanonicalMIMEHeaderKey k) k1 hk
    unfold Header.Set
    unfold Header.values at this ⊢
    simp only [List.find?_cons, h2]
    exact this

theorem canonical_keys :
    CanonicalMIMEHeaderKey (lit "Authorization") = [65, 117, 116, 104, 111, 114, 105, 122, 97, 116, 105, 111, 110]
    ∧ CanonicalMIMEHeaderKey (lit "X-Subaccount") = [88, 45, 83, 117, 98, 97, 99, 99, 111, 117, 110, 116]
    ∧ CanonicalMIMEHeaderKey (lit "User-Agent") = [85, 115, 101, 114, 45, 65, 103, 101, 110, 116]
    ∧ CanonicalMIMEHeaderKey (lit "Accept") = [65, 99, 99, 101, 112, 116]
    ∧ CanonicalMIMEHeaderKey (lit "Content-type") = [67, 111, 110, 116, 101, 110, 116, 45, 84, 121, 112, 101] := by
  decide

theorem literal_keys :
    lit "Authorization" = [65, 117, 116, 104, 111, 114, 105, 122, 97, 116, 105, 111, 110]
    ∧ lit "X-Subaccount" = [88, 45, 83, 117, 98, 97, 99, 99, 111, 117, 110, 116]
    ∧ lit "User-Agent" = [85, 115, 101, 114, 45, 65, 103, 101, 110, 116]
    ∧ lit "Accept" = [65, 99, 99, 101, 112, 116]
    ∧ lit "Content-Type" = [67, 111, 110, 116, 101, 110, 116, 45, 84, 121, 112, 101]
    ∧ lit "Content-type" = [67, 111, 110, 116, 101, 110, 116, 45, 116, 121, 112, 101] := by
  decide

/-- C7. After `addRequestHeaders` the request carries Authorization "Token <token>",
User-Agent "go-uptime" and Accept "application/json"; X-Subaccount is the client's
subaccount when that is not empty and otherwise as before; Content-Type is
"application/json" when the method is POST, PUT or DELETE and otherwise as before; every
other header, and the method, URL and body, are unchanged. -/
theorem addRequestHeaders_sets (c : UptimeClient) (req : Request) :
    (c.addRequestHeaders req).Header.values (lit "Authorization")
        = some [lit "Token " ++ c.token]
    ∧ (c.addRequestHeaders req).Header.values (lit "User-Agent") = some [lit "go-uptime"]
    ∧ (c.addRequestHeaders req).Header.values (lit "Accept") = some [lit "application/json"]
    ∧ (c.addRequestHeaders req).Header.values (lit "X-Subaccount")
        = (if c.subaccount ≠ [] then some [c.subaccount]
           else req.Header.values (lit "X-Subaccount"))
    ∧ (c.addRequestHeaders req).Header.values (lit "Content-Type")
        = (if req.Method = lit "POST" ∨ req.Method = lit "PUT" ∨ req.Method = lit "DELETE"
           then some [lit "application/json"]
           else req.Header.values (lit "Content-Type"))
    ∧ (∀ k, k ∉ managedHeaderKeys →
        (c.addRequestHeaders req).Header.values k = req.Header.values k)
    ∧ (c.addRequestHeaders req).Method = req.Method
    ∧ (c.addRequestHeaders req).URL = req.URL
    ∧ (c.addRequestHeaders req).Body = req.Body := by
  obtain ⟨c1, c2, c3, c4, c5⟩ := canonical_keys
  obtain ⟨l1, l2, l3, l4, l5, l6⟩ := literal_keys
  rw [l1] at c1
  rw [l2] at c2
  rw [l3] at c3
  rw [l4] at c4
  rw [l6] at c5
  refine ⟨?_, ?_, ?_, ?_, ?_, ?_, rfl, rfl, rfl⟩
  · simp only [UptimeClient.addRequestHeaders, MethodPost, MethodPut, MethodDelete]
    split_ifs <;> simp [values_Set, c1, c2, c3, c4, c5, l1, l2, l3, l4, l5, l6]
  · simp only [UptimeClient.addRequestHeaders, MethodPost, MethodPut, MethodDelete]
    split_ifs <;> simp [values_Set, c1, c2, c3, c4, c5, l1, l2, l3, l4, l5, l6]
  · simp only [UptimeClient.addRequestHeaders, MethodPost, MethodPut, MethodDelete]
    split_ifs <;> simp [values_Set, c1, c2, c3, c4, c5, l1, l2, l3, l4, l5, l6]
  · simp only [UptimeClient.addRequestHeaders, MethodPost, MethodPut, MethodDelete]
    split_ifs <;> simp_all [values_Set, c1, c2, c3, c4, c5, l1, l2, l3, l4, l5, l6]
  · simp only [UptimeClient.addRequestHeaders, MethodPost, MethodPut, MethodDelete]
    split_ifs <;> simp_all [values_Set, c1, c2, c3, c4, c5, l1, l2, l3, l4, l5, l6]
  · intro k hk
    simp only [managedHeaderKeys, l1, l2, l3, l4, l5, List.mem_cons, List.mem_singleton,
      List.not_mem_nil, or_false, not_or] at hk
    obtain ⟨k1, k2, k3, k4, k5⟩ := hk
    simp only [UptimeClient.addRequestHeaders, MethodPost, MethodPut, MethodDelete]
    split_ifs <;> simp [values_Set, c1, c2, c3, c4, c5, l1, l2, l3, l4, l5, l6, k1, k2, k3, k4, k5]

/-! ## Check tags -/

theorem map_error_inv {α β : Type} (x : Except GoError α) (f : α → β) (e : GoError)
    (h : x.map f = .error e) : x = .error e := by
  cases x with
  | error e1 => simpa [Except.map] using h
  | ok a => simp [Except.map] at h

theorem decodeUint_error (j : Json) (old : Nat) (e : GoError)
    (h : decodeUint j old = .error e) : e = .unmarshalTypeError := by
  unfold decodeUint at h
  split at h
  · cases h
  · split at h
    · cases h
    · cases h; rfl
  · cases h; rfl

theorem decodeUintPtr_error (j : Json) (old : Option Nat) (e : GoError)
    (h : decodeUintPtr j old = .error e) : e = .unmarshalTypeError := by
  unfold decodeUintPtr at h
  split at h
  · cases h
  · split at h
    · cases h
    · rename_i e1 he
      cases h
      exact decodeUint_error _ _ _ he

theorem decodeString_error (j : Json) (old : Bytes) (e : GoError)
    (h : decodeString j old = .error e) : e = .unmarshalTypeError := by
  unfold decodeString at h
  split at h
  · cases h
  · cases h
  · cases h; rfl

theorem checkTag_setField_error (fold : Bytes → Bytes) (t : CheckTag) (k : Bytes) (v : Json)
    (e : GoError) (h : CheckTag.setField fold t k v = .error e) :
    e = .unmarshalTypeError := by
  unfold CheckTag.setField at h
  split at h
  · exact decodeUint_error _ _ _ (map_error_inv _ _ _ h)
  · exact decodeString_error _ _ _ (map_error_inv _ _ _ h)
  · exact decodeString_error _ _ _ (map_error_inv _ _ _ h)
  · exact decodeString_error _ _ _ (map_error_inv _ _ _ h)
  · cases h

theorem checkTag_setFields_error (fold : Bytes → Bytes) (kvs : List (Bytes × Json))
    (t : CheckTag) (e : GoError) (h : CheckTag.setFields fold t kvs = .error e) :
    e = .unmarshalTypeError := by
  induction kvs generalizing t with
  | nil => cases h
  | cons kv rest ih =>
    obtain ⟨k, v⟩ := kv
    unfold CheckTag.setFields at h
    split at h
    · exact ih _ h
    · rename_i e1 he
      cases h
      exact checkTag_setField_error _ _ _ _ _ he

theorem checkTag_decode_error (fold : Bytes → Bytes) (j : Json) (t : CheckTag) (e : GoError)
    (h : CheckTag.decode fold j t = .error e) : e = .unmarshalTypeError := by
  unfold CheckTag.decode at h
  split at h
  · cases h
  · exact checkTag_setFields_error _ _ _ _ h
  · cases h; rfl

theorem postResult_setField_error (fold : Bytes → Bytes) (r : CheckTagPostResult)
    (k : Bytes) (v : Json) (e : GoError)
    (h : CheckTagPostResult.setField fold r k v = .error e) : e = .unmarshalTypeError := by
  unfold CheckTagPostResult.setField at h
  split at h
  · exact decodeUint_error _ _ _ (map_error_inv _ _ _ h)
  · exact decodeUintPtr_error _ _ _ (map_error_inv _ _ _ h)
  · exact decodeUintPtr_error _ _ _ (map_error_inv _ _ _ h)
  · exact checkTag_decode_error _ _ _ _ (map_error_inv _ _ _ h)
  · cases h

theorem postResult_setFields_error (fold : Bytes → Bytes)
    (kvs : List (Bytes × Json)) (r : CheckTagPostResult) (e : GoError)
    (h : CheckTagPostResult.setFields fold r kvs = .error e) : e = .unmarshalTypeError := by
  induction kvs generalizing r with
  | nil => cases h
  | cons kv rest ih =>
    obtain ⟨k, v⟩ := kv
    unfold CheckTagPostResult.setFields at h
    split at h
    · exact ih _ h
    · rename_i e1 he
      cases h
      exact postResult_setField_error _ _ _ _ _ he

theorem postResult_decode_error (fold : Bytes → Bytes) (j : Json)
    (r : CheckTagPostResult) (e : GoError)
    (h : CheckTagPostResult.decode fold j r = .error e) : e = .unmarshalTypeError := by
  unfold CheckTagPostResult.decode at h
  split at h
  · cases h
  · exact postResult_setFields_error _ _ _ _ h
  · cases h; rfl

theorem do_ok_is_some (w : World) (c : UptimeClient) (req : Request) (body : Option Bytes)
    (res : Option Bytes) (h : (c.do w req body).result = .ok res) : res ≠ none := by
  simp only [UptimeClient.do] at h
  split at h
  · cases h
  · split at h
    · cases h
    · split at h
      · cases h
      · split at h
        · cases h
        · cases h
          simp

theorem do_success (w : World) (c : UptimeClient) (req : Request) (body : Option Bytes)
    (resp : Response) (data : Bytes) (hw : ∀ r, w.Do r = .ok resp)
    (hs : resp.StatusCode < 400) (hb : ReadAll resp.Body = .ok data) :
    (c.do w req body).result = .ok (some data) := by
  have h1 : ¬ (resp.StatusCode = 401 ∨ resp.StatusCode = 403) := by omega
  have h2 : ¬ (resp.StatusCode ≥ 400) := by omega
  simp only [UptimeClient.do, hw, hb, h1, h2, if_false]

theorem do_error_ne_EmptyResponse (w : World) (c : UptimeClient) (req : Request)
    (body : Option Bytes) (e : GoError) (h : (c.do w req body).result = .error e) :
    e ≠ EmptyResponse := by
  simp only [UptimeClient.do] at h
  split at h
  · cases h
    simp [EmptyResponse, lit]
  · split at h
    · cases h
      simp [EmptyResponse, lit]
    · split at h
      · cases h
        simp [EmptyResponse]
      · split at h
        · cases h
          unfold requestFailedMessage
          split <;> simp [EmptyResponse, lit]
        · cases h

theorem post_error_ne_EmptyResponse (w : World) (c : UptimeClient) (path : Bytes)
    (tag : CheckTag) (e : GoError) (h : (c.post w path tag).result = .error e) :
    e ≠ EmptyResponse := by
  simp only [UptimeClient.post, NewRequestWithContext] at h
  split at h
  · rename_i e1 he
    split at he
    · cases he
      cases h
      simp [EmptyResponse]
    · cases he
  · rename_i r hr
    exact do_error_ne_EmptyResponse _ _ _ _ _ h

theorem post_ok_is_some (w : World) (c : UptimeClient) (path : Bytes) (tag : CheckTag)
    (res : Option Bytes) (h : (c.post w path tag).result = .ok res) : res ≠ none := by
  simp only [UptimeClient.post, NewRequestWithContext] at h
  split at h
  · cases h
  · exact do_ok_is_some _ _ _ _ _ h

/-- The branch `res == nil` of `NewCheckTag` is dead: whatever the network does,
`NewCheckTag` never returns the error "no response body". -/
theorem NewCheckTag_never_EmptyResponse (w : World) (c : UptimeClient) (t : CheckTag) :
    (c.NewCheckTag w t).1.2 ≠ some EmptyResponse := by
  simp only [UptimeClient.NewCheckTag]
  split
  · rename_i err herr
    simp only [ne_eq, Option.some.injEq]
    exact post_error_ne_EmptyResponse _ _ _ _ _ herr
  · rename_i hnone
    exact absurd rfl (post_ok_is_some _ _ _ _ _ hnone)
  · rename_i res hres
    split
    · rename_i err hU
      simp only [ne_eq, Option.some.injEq]
      intro he
      subst he
      unfold Unmarshal at hU
      cases hpj : parseJSON res with
      | none => rw [hpj] at hU; cases hU
      | some j =>
        rw [hpj] at hU
        have := postResult_decode_error _ _ _ _ hU
        simp [EmptyResponse] at this
    · simp

/-- C8 (the code differs). When the transport answers the create request with a
successful status and a zero-length body, `NewCheckTag` returns key 0 and a JSON
syntax error, not "no response body": `do` hands on the slice `ioutil.ReadAll` made,
which is never nil, so the test `res == nil` does not fire. A body that `json.Unmarshal`
rejects gives key 0 and the error of `Unmarshal`. -/
theorem NewCheckTag_empty_body (w : World) (c : UptimeClient) (t : CheckTag) (u : URL)
    (resp : Response) (data : Bytes)
    (hurl : w.parseURL (c.baseUrl ++ lit "check-tags/") = .ok u)
    (hw : ∀ r, w.Do r = .ok resp) (hs : resp.StatusCode < 400)
    (hb : ReadAll resp.Body = .ok data) :
    (data = [] → (c.NewCheckTag w t).1 = (0, some .syntaxError))
    ∧ (c.NewCheckTag w t).1.2 ≠ some EmptyResponse
    ∧ (∀ e, Unmarshal (fun j => CheckTagPostResult.decode w.foldName j
          ⟨0, none, none, CheckTag.zero⟩) data = .error e →
        (c.NewCheckTag w t).1 = (0, some e)) := by
  have hd := fun req body => do_success w c req body resp data hw hs hb
  have key : (c.NewCheckTag w t).1 =
      (match Unmarshal (fun j => CheckTagPostResult.decode w.foldName j
          ⟨0, none, none, CheckTag.zero⟩) data with
        | .error err => (0, some err)
        | .ok result => (result.Results.Pk, none)) := by
    simp only [UptimeClient.NewCheckTag, UptimeClient.post, NewRequestWithContext, hurl, hd]
    split <;> rfl
  refine ⟨?_, ?_, ?_⟩
  · intro h0
    subst h0
    rw [key]
    rfl
  · exact NewCheckTag_never_EmptyResponse w c t
  · intro e he
    rw [key, he]

/-- C8, at a stub transport answering 200 with a zero-length body. -/
theorem NewCheckTag_empty_body_witness :
    (([] : Bytes) = [] → (stubClient.NewCheckTag (stubWorld 200 (lit "200 OK") [])
        ⟨0, [], lit "a", lit "#fff"⟩).1 = (0, some .syntaxError))
    ∧ (stubClient.NewCheckTag (stubWorld 200 (lit "200 OK") [])
        ⟨0, [], lit "a", lit "#fff"⟩).1.2 ≠ some EmptyResponse
    ∧ (∀ e, Unmarshal (fun j => CheckTagPostResult.decode
          (stubWorld 200 (lit "200 OK") []).foldName j ⟨0, none, none, CheckTag.zero⟩) []
          = .error e →
        (stubClient.NewCheckTag (stubWorld 200 (lit "200 OK") [])
          ⟨0, [], lit "a", lit "#fff"⟩).1 = (0, some e)) :=
  NewCheckTag_empty_body (stubWorld 200 (lit "200 OK") []) stubClient
    ⟨0, [], lit "a", lit "#fff"⟩ ⟨lit "/api/v1/check-tags/", []⟩
    ⟨200, lit "200 OK", ⟨[], none⟩⟩ [] rfl (fun _ => rfl) (by decide) rfl

/-- C10 (the code differs). When the transport answers with a successful status and a
body that spells the JSON literal null, `GetCheckTags` dereferences the nil envelope
pointer the decoder left, and `GetCheckTag` returns a nil record together with a nil
error. -/
theorem read_operations_on_null (w : World) (c : UptimeClient) (pk : Nat) (resp : Response)
    (data : Bytes) (hlist : ∃ u, w.parseURL (c.baseUrl ++ lit "check-tags/") = .ok u)
    (hpk : ∃ u, w.parseURL (c.baseUrl ++ (lit "check-tags/" ++ decimal pk)) = .ok u)
    (hw : ∀ r, w.Do r = .ok resp) (hs : resp.StatusCode < 400)
    (hb : ReadAll resp.Body = .ok data) (hnull : parseJSON data = some .null) :
    (c.GetCheckTags w).1 = .nilDereference
    ∧ (c.GetCheckTag w pk).result = .ok none := by
  have hd := fun req body => do_success w c req body resp data hw hs hb
  constructor
  · obtain ⟨u, hu⟩ := hlist
    simp only [UptimeClient.GetCheckTags, UptimeClient.get, UptimeClient.getRaw,
      NewRequestWithContext, hu, hd, Option.getD_some, Unmarshal, hnull,
      CheckTagListResult.decodePtr]
  · obtain ⟨u, hu⟩ := hpk
    simp only [UptimeClient.GetCheckTag, UptimeClient.get, UptimeClient.getRaw,
      NewRequestWithContext, hu, hd, Option.getD_some, Unmarshal, hnull,
      CheckTag.decodePtr]

/-- C10, at a stub transport answering 200 with the body `null`. -/
theorem read_operations_on_null_witness :
    (stubClient.GetCheckTags (stubWorld 200 (lit "200 OK") (lit "null"))).1 = .nilDereference
    ∧ (stubClient.GetCheckTag (stubWorld 200 (lit "200 OK") (lit "null")) 1).result
        = .ok none :=
  read_operations_on_null (stubWorld 200 (lit "200 OK") (lit "null")) stubClient 1
    ⟨200, lit "200 OK", ⟨lit "null", none⟩⟩ (lit "null") ⟨_, rfl⟩ ⟨_, rfl⟩ (fun _ => rfl)
    (by decide) rfl rfl

/-! ## Construction -/

/-- C9 (the code differs). With no token supplied and an email and a password, whenever
the login request gets a response at all, whatever its status and body, `NewClient`
returns a client and no error, and the client's token is the text `fmt.Sprintf("%v", ...)`
prints for the access_token entry of the response: the empty token when that entry is
the empty string, and the text `<nil>` when the body is a JSON object without the entry.
Nothing checks that the token is there or not empty. -/
theorem NewClient_adopts_login_text (w : World)
    (baseUrl subaccount email password : Bytes) (resp : Response)
    (he : email ≠ []) (hp : password ≠ [])
    (hpost : w.PostForm ((if baseUrl = [] then defaultBaseUrl else baseUrl)
        ++ lit "auth/login/") [(lit "email", email), (lit "password", password)]
      = .ok resp) :
    (NewClient w baseUrl subaccount [] email password).result
      = .ok ⟨if baseUrl = [] then defaultBaseUrl else baseUrl, subaccount,
          accessTokenText w resp⟩
    ∧ (∀ kvs rest,
        parseValue (resp.Body.data.length + 1) 0 resp.Body.data = some (.obj kvs, rest) →
        lookupLast (lit "access_token") kvs = some (.str []) →
        accessTokenText w resp = [])
    ∧ (∀ kvs rest,
        parseValue (resp.Body.data.length + 1) 0 resp.Body.data = some (.obj kvs, rest) →
        lookupLast (lit "access_token") kvs = none →
        accessTokenText w resp = lit "<nil>") := by
  refine ⟨?_, ?_, ?_⟩
  · simp only [NewClient, if_true, he, hp, ne_eq, not_false_eq_true, and_self,
      credentialToToken, hpost]
  · intro kvs rest h1 h2
    simp only [accessTokenText, h1, h2, sprintV]
  · intro kvs rest h1 h2
    simp only [accessTokenText, h1, h2]

/-- C9, at a login answered 200 with `{"access_token":""}`, where the client comes back
with the empty token, and at a login refused with 401, where it comes back with the
token `<nil>`. -/
theorem NewClient_adopts_login_text_witness :
    (NewClient (stubWorld 200 (lit "200 OK") (lit "\x7b\"access_token\":\"\"\x7d"))
        [] [] [] (lit "user@example.com") (lit "pw")).result
      = .ok ⟨defaultBaseUrl, [], []⟩
    ∧ (NewClient (stubWorld 401 (lit "401 Unauthorized")
          (lit "\x7b\"detail\":\"bad credentials\"\x7d"))
        [] [] [] (lit "user@example.com") (lit "pw")).result
      = .ok ⟨defaultBaseUrl, [], lit "<nil>"⟩ :=
  ⟨(NewClient_adopts_login_text
      (stubWorld 200 (lit "200 OK") (lit "\x7b\"access_token\":\"\"\x7d"))
      [] [] (lit "user@example.com") (lit "pw")
      ⟨200, lit "200 OK", ⟨lit "\x7b\"access_token\":\"\"\x7d", none⟩⟩
      (by decide) (by decide) rfl).1,
   (NewClient_adopts_login_text
      (stubWorld 401 (lit "401 Unauthorized") (lit "\x7b\"detail\":\"bad credentials\"\x7d"))
      [] [] (lit "user@example.com") (lit "pw")
      ⟨401, lit "401 Unauthorized", ⟨lit "\x7b\"detail\":\"bad credentials\"\x7d", none⟩⟩
      (by decide) (by decide) rfl).1⟩

/-! ## Strings: `unquote` undoes `appendString` on valid UTF-8 -/

theorem parse_ascii_step (r : Nat) (hr : r < 0x80) (f2 : Nat) (t : Bytes) :
    parseStringBody (f2 + 1) (runeText r ++ t) = prepend [r] (parseStringBody f2 t) := by
  interval_cases r <;>
    simp [runeText, htmlSafe, escapeByte, hexDigit, parseStringBody, getu4, hexVal,
      EncodeRune, RuneSelf, lit]

theorem EncodeRune_head (r : Nat) (hr : validRune r = true) (h80 : ¬ r < 0x80) :
    ∃ b bs, EncodeRune r = b :: bs ∧ 0xC2 ≤ b ∧ 1 ≤ bs.length := by
  unfold EncodeRune
  simp only [validRune, Bool.or_eq_true, Bool.and_eq_true, decide_eq_true_eq] at hr
  simp only [h80, if_false]
  by_cases h2 : r < 0x800
  · simp only [h2, if_true]
    exact ⟨_, _, rfl, by omega, by simp⟩
  · have hv : validRune r = true := by
      simp only [validRune, Bool.or_eq_true, Bool.and_eq_true, decide_eq_true_eq]; exact hr
    simp only [h2, if_false, hv, if_true]
    by_cases h3 : r < 0x10000
    · simp only [h3, if_true]
      exact ⟨_, _, rfl, by omega, by simp⟩
    · simp only [h3, if_false]
      exact ⟨_, _, rfl, by omega, by simp⟩

theorem parse_rune_step (r : Nat) (hr : validRune r = true) (f2 : Nat) (t : Bytes) :
    parseStringBody (f2 + 1) (runeText r ++ t)
      = prepend (EncodeRune r) (parseStringBody f2 t) := by
  by_cases h80 : r < 0x80
  · rw [parse_ascii_step r h80 f2 t]
    simp [EncodeRune, h80]
  · by_cases hls : r = 0x2028 ∨ r = 0x2029
    · rcases hls with h | h <;> subst h <;>
        simp [runeText, hexDigit, parseStringBody, getu4, hexVal, EncodeRune, validRune, lit]
    · obtain ⟨b, bs, hb, hb2, hlen⟩ := EncodeRune_head r hr h80
      have hd := DecodeRune_EncodeRune r hr t
      rw [hb] at hd
      simp only [List.cons_append, List.length_cons] at hd
      simp only [runeText, h80, hls, if_false, hb, List.cons_append, parseStringBody]
      have a1 : ¬ b = 34 := by omega
      have a2 : ¬ b = 92 := by omega
      have a3 : ¬ b < 0x20 := by omega
      have a4 : ¬ b < RuneSelf := by unfold RuneSelf; omega
      simp only [a1, a2, a3, a4, if_false, hd, Nat.add_sub_cancel, List.drop_left]
      rw [hb]

theorem render_rune_step (r : Nat) (hr : validRune r = true) (f1 : Nat) (t : Bytes) :
    appendStringBody (f1 + 1) (EncodeRune r ++ t) = runeText r ++ appendStringBody f1 t := by
  by_cases h80 : r < 0x80
  · simp [EncodeRune, h80, appendStringBody, RuneSelf, runeText]
  · obtain ⟨b, bs, hb, hb2, hlen⟩ := EncodeRune_head r hr h80
    have hd := DecodeRune_EncodeRune r hr t
    rw [hb] at hd
    simp only [List.cons_append, List.length_cons] at hd
    have a4 : ¬ b < RuneSelf := by unfold RuneSelf; omega
    have a5 : ¬ (r = RuneError ∧ bs.length + 1 = 1) := by omega
    simp only [hb, List.cons_append, appendStringBody, a4, if_false, hd, a5,
      Nat.add_sub_cancel, List.drop_left, runeText, h80]
    by_cases hls : r = 0x2028 ∨ r = 0x2029
    · simp only [hls, if_true, List.append_assoc]
    · simp only [hls, if_false]
      rw [← List.cons_append, List.take_left' (by simp)]

theorem encode_two (p0 b1 : Nat) (h1 : 0xC2 ≤ p0) (h2 : p0 < 0xE0)
    (hc : isCont b1 = true) :
    validRune ((p0 % 32) * 64 + b1 % 64) = true ∧ ¬ ((p0 % 32) * 64 + b1 % 64 < 0x80)
      ∧ EncodeRune ((p0 % 32) * 64 + b1 % 64) = [p0, b1] := by
  simp only [isCont, Bool.and_eq_true, decide_eq_true_eq] at hc
  have a1 : ¬ ((p0 % 32) * 64 + b1 % 64 < 0x80) := by omega
  have a2 : (p0 % 32) * 64 + b1 % 64 < 0x800 := by omega
  refine ⟨?_, a1, ?_⟩
  · simp only [validRune, Bool.or_eq_true, decide_eq_true_eq, Bool.and_eq_true]
    omega
  · simp only [EncodeRune, a1, a2, if_false, if_true, List.cons.injEq, and_true]
    omega

theorem encode_three (p0 b1 b2 : Nat) (h1 : 0xE0 ≤ p0) (h2 : p0 < 0xF0)
    (hlo : (if p0 = 0xE0 then 0xA0 else 0x80) ≤ b1)
    (hhi : b1 ≤ (if p0 = 0xED then 0x9F else 0xBF)) (hc : isCont b2 = true) :
    validRune ((p0 % 16) * 4096 + (b1 % 64) * 64 + b2 % 64) = true
      ∧ ¬ ((p0 % 16) * 4096 + (b1 % 64) * 64 + b2 % 64 < 0x80)
      ∧ EncodeRune ((p0 % 16) * 4096 + (b1 % 64) * 64 + b2 % 64) = [p0, b1, b2] := by
  simp only [isCont, Bool.and_eq_true, decide_eq_true_eq] at hc
  have hb1 : 0x80 ≤ b1 ∧ b1 ≤ 0xBF := by
    split_ifs at hlo hhi <;> omega
  have a1 : ¬ ((p0 % 16) * 4096 + (b1 % 64) * 64 + b2 % 64 < 0x80) := by
    split_ifs at hlo hhi <;> omega
  have a2 : ¬ ((p0 % 16) * 4096 + (b1 % 64) * 64 + b2 % 64 < 0x800) := by
    split_ifs at hlo hhi <;> omega
  have a3 : (p0 % 16) * 4096 + (b1 % 64) * 64 + b2 % 64 < 0x10000 := by omega
  have hv : validRune ((p0 % 16) * 4096 + (b1 % 64) * 64 + b2 % 64) = true := by
    simp only [validRune, Bool.or_eq_true, decide_eq_true_eq, Bool.and_eq_true]
    split_ifs at hlo hhi <;> omega
  refine ⟨hv, a1, ?_⟩
  simp only [EncodeRune, a1, a2, a3, hv, if_false, if_true, List.cons.injEq, and_true]
  omega

theorem encode_four (p0 b1 b2 b3 : Nat) (h1 : 0xF0 ≤ p0) (h2 : p0 < 0xF5)
    (hlo : (if p0 = 0xF0 then 0x90 else 0x80) ≤ b1)
    (hhi : b1 ≤ (if p0 = 0xF4 then 0x8F else 0xBF)) (hc2 : isCont b2 = true)
    (hc3 : isCont b3 = true) :
    validRune ((p0 % 8) * 262144 + (b1 % 64) * 4096 + (b2 % 64) * 64 + b3 % 64) = true
      ∧ ¬ ((p0 % 8) * 262144 + (b1 % 64) * 4096 + (b2 % 64) * 64 + b3 % 64 < 0x80)
      ∧ EncodeRune ((p0 % 8) * 262144 + (b1 % 64) * 4096 + (b2 % 64) * 64 + b3 % 64)
          = [p0, b1, b2, b3] := by
  simp only [isCont, Bool.and_eq_true, decide_eq_true_eq] at hc2 hc3
  have hb1 : 0x80 ≤ b1 ∧ b1 ≤ 0xBF := by
    split_ifs at hlo hhi <;> omega
  have a1 : ¬ ((p0 % 8) * 262144 + (b1 % 64) * 4096 + (b2 % 64) * 64 + b3 % 64 < 0x80) := by
    split_ifs at hlo hhi <;> omega
  have a2 : ¬ ((p0 % 8) * 262144 + (b1 % 64) * 4096 + (b2 % 64) * 64 + b3 % 64 < 0x800) := by
    split_ifs at hlo hhi <;> omega
  have a3 : ¬ ((p0 % 8) * 262144 + (b1 % 64) * 4096 + (b2 % 64) * 64 + b3 % 64
      < 0x10000) := by
    split_ifs at hlo hhi <;> omega
  have hv : validRune ((p0 % 8) * 262144 + (b1 % 64) * 4096 + (b2 % 64) * 64 + b3 % 64)
      = true := by
    simp only [validRune, Bool.or_eq_true, decide_eq_true_eq, Bool.and_eq_true]
    split_ifs at hlo hhi <;> omega
  refine ⟨hv, a1, ?_⟩
  simp only [EncodeRune, a1, a2, a3, hv, if_false, if_true, List.cons.injEq, and_true]
  omega

/-- A rune that `DecodeRune` reads without error from a multi-byte lead is a scalar value
whose encoding is the bytes read. -/
theorem DecodeRune_valid (b : Nat) (rest : Bytes) (h80 : ¬ b < 0x80)
    (hv : ¬ ((DecodeRune (b :: rest)).1 = RuneError ∧ (DecodeRune (b :: rest)).2 = 1)) :
    validRune (DecodeRune (b :: rest)).1 = true ∧ ¬ (DecodeRune (b :: rest)).1 < 0x80
      ∧ b :: rest = EncodeRune (DecodeRune (b :: rest)).1
          ++ rest.drop ((DecodeRune (b :: rest)).2 - 1) := by
  unfold DecodeRune at hv ⊢
  simp only [h80, if_false] at hv ⊢
  by_cases hC2 : b < 0xC2
  · simp [hC2] at hv
  · simp only [hC2, if_false] at hv ⊢
    by_cases hE0 : b < 0xE0
    · simp only [hE0, if_true] at hv ⊢
      rcases rest with _ | ⟨b1, rest⟩
      · simp at hv
      · simp only at hv ⊢
        by_cases hc : isCont b1 = true
        · simp only [hc, if_true] at hv ⊢
          obtain ⟨v1, v2, v3⟩ := encode_two b b1 (by omega) hE0 hc
          exact ⟨v1, v2, by simp [v3]⟩
        · simp [hc] at hv
    · simp only [hE0, if_false] at hv ⊢
      by_cases hF0 : b < 0xF0
      · simp only [hF0, if_true] at hv ⊢
        rcases rest with _ | ⟨b1, _ | ⟨b2, rest⟩⟩
        · simp at hv
        · simp at hv
        · simp only at hv ⊢
          by_cases hr : b1 < (if b = 0xE0 then 0xA0 else 0x80)
              ∨ (if b = 0xED then 0x9F else 0xBF) < b1
          · simp [hr] at hv
          · simp only [hr, if_false] at hv ⊢
            by_cases hc : isCont b2 = true
            · simp only [hc, if_true] at hv ⊢
              obtain ⟨v1, v2, v3⟩ := encode_three b b1 b2 (by omega) hF0 (by omega)
                (by omega) hc
              exact ⟨v1, v2, by simp [v3]⟩
            · simp [hc] at hv
      · simp only [hF0, if_false] at hv ⊢
        by_cases hF5 : b < 0xF5
        · simp only [hF5, if_true] at hv ⊢
          rcases rest with _ | ⟨b1, _ | ⟨b2, _ | ⟨b3, rest⟩⟩⟩
          · simp at hv
          · simp at hv
          · simp at hv
          · simp only at hv ⊢
            by_cases hr : b1 < (if b = 0xF0 then 0x90 else 0x80)
                ∨ (if b = 0xF4 then 0x8F else 0xBF) < b1
            · simp [hr] at hv
            · simp only [hr, if_false] at hv ⊢
              by_cases hc2 : isCont b2 = true
              · simp only [hc2, if_true] at hv ⊢
                by_cases hc3 : isCont b3 = true
                · simp only [hc3, if_true] at hv ⊢
                  obtain ⟨v1, v2, v3⟩ := encode_four b b1 b2 b3 (by omega) hF5 (by omega)
                    (by omega) hc2 hc3
                  exact ⟨v1, v2, by simp [v3]⟩
                · simp [hc3] at hv
              · simp [hc2] at hv
        · simp [hF5] at hv

theorem toValid_rune_step (r : Nat) (hr : validRune r = true) (f : Nat) (t : Bytes) :
    toValidUTF8Body (f + 1) (EncodeRune r ++ t) = EncodeRune r ++ toValidUTF8Body f t := by
  by_cases h80 : r < 0x80
  · simp [EncodeRune, h80, toValidUTF8Body, RuneSelf]
  · obtain ⟨b, bs, hb, hb2, hlen⟩ := EncodeRune_head r hr h80
    have hd := DecodeRune_EncodeRune r hr t
    rw [hb] at hd
    simp only [List.cons_append, List.length_cons] at hd
    have a4 : ¬ b < RuneSelf := by unfold RuneSelf; omega
    simp only [hb, List.cons_append, toValidUTF8Body, a4, if_false, hd, Nat.add_sub_cancel,
      List.drop_left]

theorem toValidUTF8Body_valid (rs : List Nat) (hv : ∀ r ∈ rs, validRune r = true) :
    ∀ f, (encodeRunes rs).length ≤ f →
      toValidUTF8Body f (encodeRunes rs) = encodeRunes rs := by
  induction rs with
  | nil => intro f _; cases f <;> rfl
  | cons r rs ih =>
    intro f h1
    have hr : validRune r = true := hv r (List.mem_cons_self _ _)
    have hrs : ∀ x ∈ rs, validRune x = true := fun x hx => hv x (List.mem_cons_of_mem _ hx)
    have hpos : 1 ≤ (EncodeRune r).length := by
      unfold EncodeRune; split_ifs <;> simp
    simp only [encodeRunes, List.length_append] at h1
    obtain ⟨g, rfl⟩ : ∃ g, f = g + 1 := ⟨f - 1, by omega⟩
    simp only [encodeRunes]
    rw [toValid_rune_step r hr, ih hrs g (by omega)]

/-- Valid UTF-8 is left as it is. -/
theorem toValidUTF8_valid (s : Bytes) (hs : ValidUTF8 s) : toValidUTF8 s = s := by
  obtain ⟨rs, hv, rfl⟩ := hs
  exact toValidUTF8Body_valid rs hv _ (le_refl _)

/-- What `unquote` reads from the encoder's text of any Go string is the string with its
invalid bytes replaced. -/
theorem string_body_general : ∀ (f1 : Nat) (s : Bytes) (f2 : Nat) (rest : Bytes),
    s.length ≤ f1 → s.length < f2 →
    parseStringBody f2 (appendStringBody f1 s ++ 34 :: rest)
      = some (toValidUTF8Body f1 s, rest) := by
  intro f1
  induction f1 with
  | zero =>
    intro s f2 rest h1 h2
    obtain ⟨f, rfl⟩ : ∃ f, f2 = f + 1 := ⟨f2 - 1, by omega⟩
    simp [appendStringBody, toValidUTF8Body, parseStringBody]
  | succ f ih =>
    intro s f2 rest h1 h2
    obtain ⟨g, rfl⟩ : ∃ g, f2 = g + 1 := ⟨f2 - 1, by omega⟩
    cases s with
    | nil => simp [appendStringBody, toValidUTF8Body, parseStringBody]
    | cons b rest0 =>
      simp only [List.length_cons] at h1 h2
      by_cases h80 : b < 0x80
      · have e1 : appendStringBody (f + 1) (b :: rest0)
            = runeText b ++ appendStringBody f rest0 := by
          simp [appendStringBody, runeText, RuneSelf, h80]
        have e2 : toValidUTF8Body (f + 1) (b :: rest0) = b :: toValidUTF8Body f rest0 := by
          simp [toValidUTF8Body, RuneSelf, h80]
        rw [e1, e2, List.append_assoc, parse_ascii_step b h80,
          ih rest0 g rest (by omega) (by omega)]
        rfl
      · have hRS : ¬ b < RuneSelf := h80
        by_cases hinv : (DecodeRune (b :: rest0)).1 = RuneError
            ∧ (DecodeRune (b :: rest0)).2 = 1
        · have e1 : appendStringBody (f + 1) (b :: rest0)
              = lit "\\ufffd" ++ appendStringBody f rest0 := by
            simp only [appendStringBody, hRS, if_false, hinv, and_self, if_true]
          have e2 : toValidUTF8Body (f + 1) (b :: rest0)
              = [0xEF, 0xBF, 0xBD] ++ toValidUTF8Body f rest0 := by
            simp only [toValidUTF8Body, hRS, if_false, hinv.1, hinv.2, Nat.sub_self,
              List.drop_zero]
            rfl
          have e3 : ∀ t, parseStringBody (g + 1) (lit "\\ufffd" ++ t)
              = prepend [0xEF, 0xBF, 0xBD] (parseStringBody g t) := by
            intro t
            simp [parseStringBody, getu4, hexVal, EncodeRune, validRune, lit]
          rw [e1, e2, List.append_assoc, e3, ih rest0 g rest (by omega) (by omega)]
          rfl
        · obtain ⟨v1, v2, v3⟩ := DecodeRune_valid b rest0 h80 hinv
          have hlen : (rest0.drop ((DecodeRune (b :: rest0)).2 - 1)).length ≤ rest0.length := by
            simp
          rw [v3, render_rune_step _ v1, toValid_rune_step _ v1, List.append_assoc,
            parse_rune_step _ v1, ih _ g rest (by omega) (by omega)]
          rfl

/-- The encoder's string body followed by a quote is read back as the string. -/
theorem string_body_roundtrip (rs : List Nat) (hv : ∀ r ∈ rs, validRune r = true) :
    ∀ (f1 f2 : Nat) (rest : Bytes), (encodeRunes rs).length ≤ f1 → rs.length < f2 →
      parseStringBody f2 (appendStringBody f1 (encodeRunes rs) ++ 34 :: rest)
        = some (encodeRunes rs, rest) := by
  induction rs with
  | nil =>
    intro f1 f2 rest _ h2
    obtain ⟨f, rfl⟩ : ∃ f, f2 = f + 1 := ⟨f2 - 1, by simp at h2; omega⟩
    cases f1 <;> simp [encodeRunes, appendStringBody, parseStringBody]
  | cons r rs ih =>
    intro f1 f2 rest h1 h2
    have hr : validRune r = true := hv r (List.mem_cons_self _ _)
    have hrs : ∀ x ∈ rs, validRune x = true := fun x hx => hv x (List.mem_cons_of_mem _ hx)
    have hpos : 1 ≤ (EncodeRune r).length := by
      unfold EncodeRune; split_ifs <;> simp
    simp only [encodeRunes, List.length_append] at h1
    obtain ⟨g1, rfl⟩ : ∃ g, f1 = g + 1 := ⟨f1 - 1, by omega⟩
    obtain ⟨g2, rfl⟩ : ∃ g, f2 = g + 1 := ⟨f2 - 1, by simp at h2; omega⟩
    simp only [encodeRunes]
    rw [render_rune_step r hr, List.append_assoc, parse_rune_step r hr,
      ih hrs g1 g2 rest (by omega) (by simpa using h2)]
    rfl

/-! ## Numbers: decimal text and its reading -/

theorem decimalLoop_acc (fuel : Nat) : ∀ (n : Nat) (acc : Bytes),
    decimalLoop fuel n acc = decimalLoop fuel n [] ++ acc := by
  induction fuel with
  | zero => intro n acc; rfl
  | succ f ih =>
    intro n acc
    simp only [decimalLoop]
    split_ifs
    · rfl
    · rw [ih (n / 10) ((48 + n % 10) :: acc), ih (n / 10) [48 + n % 10]]
      simp

theorem decimalLoop_fuel (f1 : Nat) : ∀ (f2 n : Nat) (acc : Bytes), n < f1 → n < f2 →
    decimalLoop f1 n acc = decimalLoop f2 n acc := by
  induction f1 with
  | zero => intro f2 n acc h; omega
  | succ f ih =>
    intro f2 n acc h1 h2
    obtain ⟨g, rfl⟩ : ∃ g, f2 = g + 1 := ⟨f2 - 1, by omega⟩
    simp only [decimalLoop]
    split_ifs with h10
    · rfl
    · exact ih g (n / 10) _ (by omega) (by omega)

theorem decimal_unfold (n : Nat) :
    decimal n = if n < 10 then [48 + n] else decimal (n / 10) ++ [48 + n % 10] := by
  have e : decimal n = if n < 10 then [48 + n]
      else decimalLoop n (n / 10) [48 + n % 10] := rfl
  rw [e]
  split_ifs with h
  · rfl
  · rw [decimalLoop_acc, decimalLoop_fuel n (n / 10 + 1) (n / 10) [] (by omega) (by omega)]
    rfl

theorem decimal_shape (n : Nat) :
    ∃ c tail, decimal n = c :: tail ∧ tail.all isDigit = true
      ∧ (n = 0 → c = 48 ∧ tail = []) ∧ (0 < n → 49 ≤ c ∧ c ≤ 57) := by
  induction n using Nat.strong_induction_on with
  | _ n ih =>
    rw [decimal_unfold]
    split_ifs with h
    · exact ⟨48 + n, [], rfl, rfl, fun h0 => ⟨by omega, rfl⟩, fun _ => by omega⟩
    · obtain ⟨c, tail, hc, ht, _, hpos⟩ := ih (n / 10) (by omega)
      refine ⟨c, tail ++ [48 + n % 10], by rw [hc]; rfl, ?_, fun h0 => by omega,
        fun _ => hpos (by omega)⟩
      simp only [List.all_append, ht, Bool.true_and, List.all_cons, List.all_nil,
        Bool.and_true, isDigit, Bool.and_eq_true, decide_eq_true_eq]
      omega

theorem decimal_value (n : Nat) :
    (decimal n).foldl (fun a c => a * 10 + (c - 48)) 0 = n := by
  induction n using Nat.strong_induction_on with
  | _ n ih =>
    rw [decimal_unfold]
    split_ifs with h
    · simp
    · rw [List.foldl_append, ih (n / 10) (by omega)]
      simp only [List.foldl_cons, List.foldl_nil]
      omega

theorem parseUint_decimal (n : Nat) (h : n < 2 ^ 64) : parseUint (decimal n) = some n := by
  obtain ⟨c, tail, hc, ht, _, hpos⟩ := decimal_shape n
  have hall : (decimal n).all isDigit = true := by
    rw [hc]
    simp only [List.all_cons, ht, Bool.and_true]
    rcases Nat.eq_zero_or_pos n with h0 | h0
    · subst h0
      rw [decimal_unfold] at hc
      simp at hc
      simp [isDigit, ← hc.1]
    · have := hpos h0
      simp only [isDigit, Bool.and_eq_true, decide_eq_true_eq]
      omega
  have hne : decimal n ≠ [] := by rw [hc]; simp
  unfold parseUint
  simp only [hne, ne_eq, not_false_eq_true, hall, and_self, if_true, decimal_value, h]

theorem stops_cases (rest : Bytes) (h : stops rest = true) :
    rest = [] ∨ ∃ t, rest = 44 :: t ∨ rest = 93 :: t ∨ rest = 125 :: t := by
  cases rest with
  | nil => exact Or.inl rfl
  | cons c t =>
    right
    refine ⟨t, ?_⟩
    simp only [stops, isStop, Bool.or_eq_true, decide_eq_true_eq] at h
    rcases h with (h | h) | h <;> subst h <;> simp

theorem scanFrac_stops (rest : Bytes) (h : stops rest = true) :
    scanFrac rest = some ([], rest) := by
  rcases stops_cases rest h with h | ⟨t, h | h | h⟩ <;> subst h <;> rfl

theorem span_digits (tail rest : Bytes) (ht : tail.all isDigit = true)
    (hs : stops rest = true) : (tail ++ rest).span isDigit = (tail, rest) := by
  rw [List.span_eq_take_drop]
  induction tail with
  | nil =>
    rcases stops_cases rest hs with h | ⟨t, h | h | h⟩ <;> subst h <;> rfl
  | cons c tail ih =>
    simp only [List.all_cons, Bool.and_eq_true] at ht
    have := ih ht.2
    simp only [Prod.mk.injEq] at this
    simp only [List.cons_append, List.takeWhile_cons, List.dropWhile_cons, ht.1, if_true,
      this.1, this.2]

theorem scanNumber_decimal (n : Nat) (rest : Bytes) (hs : stops rest = true) :
    scanNumber (decimal n ++ rest) = some (decimal n, rest) := by
  obtain ⟨c, tail, hc, ht, hzero, hpos⟩ := decimal_shape n
  rw [hc]
  rcases Nat.eq_zero_or_pos n with h0 | h0
  · obtain ⟨h1, h2⟩ := hzero h0
    subst h1 h2
    simp [scanNumber, scanInt, scanFrac_stops rest hs, prepend]
  · have hcr := hpos h0
    have c45 : c ≠ 45 := by omega
    have c48 : c ≠ 48 := by omega
    have hsi : scanInt (c :: (tail ++ rest)) = some (c :: tail, rest) := by
      simp only [scanInt, c48, if_false, hcr, and_self, if_true, span_digits tail rest ht hs,
        scanFrac_stops rest hs, prepend, List.append_nil]
    unfold scanNumber
    split
    · rename_i r heq
      simp only [List.cons_append, List.cons.injEq] at heq
      exact absurd heq.1 c45
    · exact hsi

/-! ## The scanner reads back what the encoder writes -/

theorem skipWS_start (c : Nat) (t : Bytes) (h : isStart c = true) :
    skipWS (c :: t) = c :: t := by
  have : isSpace c = false := by
    simp only [isStart, isDigit, Bool.or_eq_true, decide_eq_true_eq, Bool.and_eq_true] at h
    simp only [isSpace, Bool.or_eq_false_iff, decide_eq_false_iff_not]
    omega
  simp [skipWS, this]

theorem runeText_length (r : Nat) : 1 ≤ (runeText r).length := by
  unfold runeText escapeByte EncodeRune
  split_ifs <;> simp [lit]

theorem appendStringBody_length (rs : List Nat) (hv : ∀ r ∈ rs, validRune r = true) :
    ∀ f1, (encodeRunes rs).length ≤ f1 →
      rs.length ≤ (appendStringBody f1 (encodeRunes rs)).length := by
  induction rs with
  | nil => intro f1 _; simp
  | cons r rs ih =>
    intro f1 h1
    have hr : validRune r = true := hv r (List.mem_cons_self _ _)
    have hrs : ∀ x ∈ rs, validRune x = true := fun x hx => hv x (List.mem_cons_of_mem _ hx)
    have hpos : 1 ≤ (EncodeRune r).length := by
      unfold EncodeRune; split_ifs <;> simp
    simp only [encodeRunes, List.length_append] at h1
    obtain ⟨g1, rfl⟩ : ∃ g, f1 = g + 1 := ⟨f1 - 1, by omega⟩
    simp only [encodeRunes]
    rw [render_rune_step r hr, List.length_append, List.length_cons]
    have := ih hrs g1 (by omega)
    have := runeText_length r
    omega

theorem parseString_appendString (s rest : Bytes) (hs : ValidUTF8 s) :
    parseString (appendStringBody s.length s ++ 34 :: rest) = some (s, rest) := by
  obtain ⟨rs, hv, rfl⟩ := hs
  unfold parseString
  apply string_body_roundtrip rs hv _ _ rest (le_refl _)
  have := appendStringBody_length rs hv _ (le_refl _)
  simp only [List.length_append, List.length_cons]
  omega

theorem appendStringBody_length_ge : ∀ (f : Nat) (s : Bytes), s.length ≤ f →
    s.length ≤ (appendStringBody f s).length := by
  intro f
  induction f with
  | zero => intro s h; omega
  | succ f ih =>
    intro s h
    cases s with
    | nil => simp
    | cons b rest0 =>
      simp only [List.length_cons] at h
      by_cases h80 : b < 0x80
      · have e1 : appendStringBody (f + 1) (b :: rest0)
            = runeText b ++ appendStringBody f rest0 := by
          simp [appendStringBody, runeText, RuneSelf, h80]
        have := runeText_length b
        have := ih rest0 (by omega)
        rw [e1, List.length_append, List.length_cons]
        omega
      · have hRS : ¬ b < RuneSelf := h80
        by_cases hinv : (DecodeRune (b :: rest0)).1 = RuneError
            ∧ (DecodeRune (b :: rest0)).2 = 1
        · have e1 : appendStringBody (f + 1) (b :: rest0)
              = lit "\\ufffd" ++ appendStringBody f rest0 := by
            simp only [appendStringBody, hRS, if_false, hinv, and_self, if_true]
          have := ih rest0 (by omega)
          rw [e1, List.length_append, List.length_cons]
          simp only [lit, String.toList, List.map, List.length_cons, List.length_nil]
          omega
        · obtain ⟨v1, v2, v3⟩ := DecodeRune_valid b rest0 h80 hinv
          have hlen : (rest0.drop ((DecodeRune (b :: rest0)).2 - 1)).length
              ≤ rest0.length := by simp
          have ht := ih (rest0.drop ((DecodeRune (b :: rest0)).2 - 1)) (by omega)
          have hle : (EncodeRune (DecodeRune (b :: rest0)).1).length
              ≤ (runeText (DecodeRune (b :: rest0)).1).length := by
            unfold runeText
            simp only [v2, if_false]
            split_ifs
            · unfold EncodeRune
              split_ifs <;> simp [lit]
            · exact le_refl _
          have hsplit := congrArg List.length v3
          rw [List.length_append] at hsplit
          rw [v3, render_rune_step _ v1, List.length_append]
          simp only [List.length_cons] at hsplit
          rw [List.length_append]
          omega

/-- The text the encoder writes for any Go string is read back as the string with its
invalid bytes replaced by U+FFFD. -/
theorem parseString_appendString_general (s rest : Bytes) :
    parseString (appendStringBody s.length s ++ 34 :: rest)
      = some (toValidUTF8 s, rest) := by
  unfold parseString toValidUTF8
  apply string_body_general s.length s _ rest (le_refl _)
  have := appendStringBody_length_ge s.length s (le_refl _)
  simp only [List.length_append, List.length_cons]
  omega

theorem parseValue_str_general (fuel depth : Nat) (s rest : Bytes) :
    parseValue (fuel + 1) depth ((Json.str s).render ++ rest)
      = some (.str (toValidUTF8 s), rest) := by
  have := parseString_appendString_general s rest
  simp only [List.append_assoc, List.singleton_append] at this
  simp [parseValue, Json.render, appendString, skipWS, isSpace, this]

theorem parseValue_null (fuel depth : Nat) (rest : Bytes) :
    parseValue (fuel + 1) depth (Json.null.render ++ rest) = some (.null, rest) := by
  simp [parseValue, Json.render, lit, skipWS, isSpace, isDigit]

theorem parseValue_bool (fuel depth : Nat) (b : Bool) (rest : Bytes) :
    parseValue (fuel + 1) depth ((Json.bool b).render ++ rest) = some (.bool b, rest) := by
  cases b <;> simp [parseValue, Json.render, lit, skipWS, isSpace, isDigit]

theorem parseValue_str (fuel depth : Nat) (s rest : Bytes) (hs : ValidUTF8 s) :
    parseValue (fuel + 1) depth ((Json.str s).render ++ rest) = some (.str s, rest) := by
  have := parseString_appendString s rest hs
  simp only [List.append_assoc, List.singleton_append] at this
  simp [parseValue, Json.render, appendString, skipWS, isSpace, this]

theorem parseValue_num (fuel depth n : Nat) (rest : Bytes) (hs : stops rest = true) :
    parseValue (fuel + 1) depth ((Json.num (decimal n)).render ++ rest)
      = some (.num (decimal n), rest) := by
  have hsn := scanNumber_decimal n rest hs
  obtain ⟨c, tail, hc, ht, hzero, hpos⟩ := decimal_shape n
  have hd : isDigit c = true := by
    rcases Nat.eq_zero_or_pos n with h0 | h0
    · rw [(hzero h0).1]; rfl
    · have := hpos h0
      simp only [isDigit, Bool.and_eq_true, decide_eq_true_eq]; omega
  have hr : 48 ≤ c ∧ c ≤ 57 := by
    simpa only [isDigit, Bool.and_eq_true, decide_eq_true_eq] using hd
  simp only [Json.render]
  rw [hc] at hsn ⊢
  simp only [List.cons_append] at hsn ⊢
  have hsp : isSpace c = false := by
    simp only [isSpace, Bool.or_eq_false_iff, decide_eq_false_iff_not]; omega
  have e1 : ¬ c = 123 := by omega
  have e2 : ¬ c = 91 := by omega
  have e3 : ¬ c = 34 := by omega
  simp only [parseValue, skipWS, hsp, Bool.false_eq_true, if_false, e1, e2, e3, hd, or_true,
    if_true, hsn]

theorem render_start (j : Json) (hj : j.plain) :
    ∃ c t, j.render = c :: t ∧ isStart c = true := by
  cases j with
  | null => exact ⟨110, _, rfl, rfl⟩
  | bool b => cases b
              · exact ⟨102, _, rfl, rfl⟩
              · exact ⟨116, _, rfl, rfl⟩
  | num text =>
    obtain ⟨n, rfl⟩ := hj
    obtain ⟨c, tail, hc, _, hzero, hpos⟩ := decimal_shape n
    refine ⟨c, tail, hc, ?_⟩
    rcases Nat.eq_zero_or_pos n with h0 | h0
    · rw [(hzero h0).1]; rfl
    · have := hpos h0
      simp only [isStart, isDigit, Bool.or_eq_true, decide_eq_true_eq, Bool.and_eq_true]
      omega
  | str s => exact ⟨34, _, rfl, rfl⟩
  | arr xs => exact ⟨91, _, rfl, rfl⟩
  | obj kvs => exact ⟨123, _, rfl, rfl⟩

theorem renderElems_cons (x : Json) (xs : List Json) (rest : Bytes) :
    Json.renderElems (x :: xs) ++ 93 :: rest
      = x.render ++ (match xs with
          | [] => 93 :: rest
          | y :: ys => 44 :: (Json.renderElems (y :: ys) ++ 93 :: rest)) := by
  cases xs with
  | nil => simp [Json.renderElems]
  | cons y ys => simp [Json.renderElems]

theorem renderMembers_cons (k : Bytes) (v : Json) (kvs : List (Bytes × Json)) (rest : Bytes) :
    Json.renderMembers ((k, v) :: kvs) ++ 125 :: rest
      = 34 :: (appendStringBody k.length k ++ 34 :: 58 :: (v.render ++ (match kvs with
          | [] => 125 :: rest
          | kv :: more => 44 :: (Json.renderMembers (kv :: more) ++ 125 :: rest)))) := by
  cases kvs with
  | nil => simp [Json.renderMembers, appendString]
  | cons kv more => simp [Json.renderMembers, appendString]

theorem parseElems_step (fuel depth : Nat) (x : Json) (xs : List Json) (rest : Bytes)
    (hv : ∀ r, stops r = true → parseValue fuel depth (x.render ++ r) = some (x, r))
    (ih : xs ≠ [] → parseElems fuel depth (Json.renderElems xs ++ 93 :: rest)
        = some (xs, rest)) :
    parseElems (fuel + 1) depth (Json.renderElems (x :: xs) ++ 93 :: rest)
      = some (x :: xs, rest) := by
  rw [renderElems_cons]
  cases xs with
  | nil =>
    simp only [parseElems, hv (93 :: rest) rfl]
    simp [skipWS, isSpace]
  | cons y ys =>
    simp only [parseElems, hv (44 :: (Json.renderElems (y :: ys) ++ 93 :: rest)) rfl]
    simp [skipWS, isSpace, ih (by simp)]

theorem parseMembers_step (fuel depth : Nat) (k : Bytes) (v : Json)
    (kvs : List (Bytes × Json)) (rest : Bytes) (hk : ValidUTF8 k)
    (hv : ∀ r, stops r = true → parseValue fuel depth (v.render ++ r) = some (v, r))
    (ih : kvs ≠ [] → parseMembers fuel depth (Json.renderMembers kvs ++ 125 :: rest)
        = some (kvs, rest)) :
    parseMembers (fuel + 1) depth (Json.renderMembers ((k, v) :: kvs) ++ 125 :: rest)
      = some ((k, v) :: kvs, rest) := by
  rw [renderMembers_cons]
  cases kvs with
  | nil =>
    simp only [parseMembers, parseString_appendString k _ hk]
    simp [skipWS, isSpace, hv (125 :: rest) rfl]
  | cons kv more =>
    obtain ⟨k1, v1⟩ := kv
    have hih := ih (by simp)
    rw [renderMembers_cons] at hih
    have e := hv (44 :: (Json.renderMembers ((k1, v1) :: more) ++ 125 :: rest)) rfl
    simp only [parseMembers, parseString_appendString k _ hk]
    have s58 : ∀ x : Bytes, skipWS (58 :: x) = 58 :: x := fun x => rfl
    have s44 : ∀ x : Bytes, skipWS (44 :: x) = 44 :: x := fun x => rfl
    have s34 : ∀ x : Bytes, skipWS (34 :: x) = 34 :: x := fun x => rfl
    simp only [s58]
    rw [e]
    simp only [s44]
    rw [renderMembers_cons]
    simp only [s34, hih]

theorem isStart_ne (c : Nat) (h : isStart c = true) : c ≠ 93 ∧ c ≠ 125 := by
  simp only [isStart, isDigit, Bool.or_eq_true, decide_eq_true_eq, Bool.and_eq_true] at h
  omega

theorem parseValue_arr (fuel depth : Nat) (xs : List Json) (rest : Bytes)
    (hd : depth < maxNestingDepth) (hx : Json.plainElems xs)
    (ih : xs ≠ [] → parseElems fuel (depth + 1) (Json.renderElems xs ++ 93 :: rest)
        = some (xs, rest)) :
    parseValue (fuel + 1) depth ((Json.arr xs).render ++ rest) = some (.arr xs, rest) := by
  have hd1 : ¬ maxNestingDepth ≤ depth := by omega
  have s91 : ∀ x : Bytes, skipWS (91 :: x) = 91 :: x := fun x => rfl
  have s93 : ∀ x : Bytes, skipWS (93 :: x) = 93 :: x := fun x => rfl
  cases xs with
  | nil =>
    simp only [Json.render, Json.renderElems, List.append_nil, List.singleton_append,
      List.cons_append, List.nil_append, parseValue, s91, s93]
    simp [hd1]
  | cons x xs =>
    have hih := ih (by simp)
    obtain ⟨c, t, hc, hstart⟩ := render_start x hx.1
    have hform : ∃ t1, Json.renderElems (x :: xs) ++ 93 :: rest = c :: t1 := by
      rw [renderElems_cons, hc]
      exact ⟨_, rfl⟩
    obtain ⟨t1, ht1⟩ := hform
    rw [ht1] at hih
    have e : (Json.arr (x :: xs)).render ++ rest = 91 :: c :: t1 := by
      simp only [Json.render, List.append_assoc, List.singleton_append, List.cons_append,
        List.nil_append]
      rw [ht1]
    rw [e]
    have c93 := (isStart_ne c hstart).1
    have e123 : ¬ ((91 : Nat) = 123) := by decide
    simp only [parseValue, s91, skipWS_start c t1 hstart, e123, if_false, if_true, hd1]
    split
    · rename_i r heq
      simp only [List.cons.injEq] at heq
      exact absurd heq.1 c93
    · rw [hih]

theorem parseValue_obj (fuel depth : Nat) (kvs : List (Bytes × Json)) (rest : Bytes)
    (hd : depth < maxNestingDepth)
    (ih : kvs ≠ [] → parseMembers fuel (depth + 1) (Json.renderMembers kvs ++ 125 :: rest)
        = some (kvs, rest)) :
    parseValue (fuel + 1) depth ((Json.obj kvs).render ++ rest) = some (.obj kvs, rest) := by
  have hd1 : ¬ maxNestingDepth ≤ depth := by omega
  have s123 : ∀ x : Bytes, skipWS (123 :: x) = 123 :: x := fun x => rfl
  have s125 : ∀ x : Bytes, skipWS (125 :: x) = 125 :: x := fun x => rfl
  have s34 : ∀ x : Bytes, skipWS (34 :: x) = 34 :: x := fun x => rfl
  cases kvs with
  | nil =>
    simp only [Json.render, Json.renderMembers, List.append_nil, List.singleton_append,
      List.cons_append, List.nil_append, parseValue, s123, s125]
    simp [hd1]
  | cons kv kvs =>
    obtain ⟨k, v⟩ := kv
    have hih := ih (by simp)
    rw [renderMembers_cons] at hih
    have e : (Json.obj ((k, v) :: kvs)).render ++ rest
        = 123 :: (Json.renderMembers ((k, v) :: kvs) ++ 125 :: rest) := by
      simp only [Json.render, List.append_assoc, List.singleton_append, List.cons_append,
        List.nil_append]
    rw [e, renderMembers_cons]
    simp only [parseValue, s123, s34, if_true, hd1, if_false]
    rw [hih]

mutual
/-- The scanner reads a plain document back from its compact text. -/
theorem parse_render : (j : Json) → j.plain → (fuel depth : Nat) → (rest : Bytes) →
    j.need ≤ fuel → depth + j.nest ≤ maxNestingDepth → stops rest = true →
    parseValue fuel depth (j.render ++ rest) = some (j, rest)
  | .null, _, fuel, depth, rest, hf, _, _ => by
    simp only [Json.need] at hf
    obtain ⟨f, rfl⟩ : ∃ f, fuel = f + 1 := ⟨fuel - 1, by omega⟩
    exact parseValue_null f depth rest
  | .bool b, _, fuel, depth, rest, hf, _, _ => by
    simp only [Json.need] at hf
    obtain ⟨f, rfl⟩ : ∃ f, fuel = f + 1 := ⟨fuel - 1, by omega⟩
    exact parseValue_bool f depth b rest
  | .num text, hj, fuel, depth, rest, hf, _, hs => by
    simp only [Json.need] at hf
    simp only [Json.plain] at hj
    obtain ⟨n, rfl⟩ := hj
    obtain ⟨f, rfl⟩ : ∃ f, fuel = f + 1 := ⟨fuel - 1, by omega⟩
    exact parseValue_num f depth n rest hs
  | .str s, hj, fuel, depth, rest, hf, _, _ => by
    simp only [Json.need] at hf
    simp only [Json.plain] at hj
    obtain ⟨f, rfl⟩ : ∃ f, fuel = f + 1 := ⟨fuel - 1, by omega⟩
    exact parseValue_str f depth s rest hj
  | .arr xs, hj, fuel, depth, rest, hf, hd, _ => by
    simp only [Json.need] at hf
    simp only [Json.nest] at hd
    simp only [Json.plain] at hj
    obtain ⟨f, rfl⟩ : ∃ f, fuel = f + 1 := ⟨fuel - 1, by omega⟩
    exact parseValue_arr f depth xs rest (by omega) hj
      (fun hne => parse_render_elems xs hj hne f (depth + 1) rest (by omega) (by omega))
  | .obj kvs, hj, fuel, depth, rest, hf, hd, _ => by
    simp only [Json.need] at hf
    simp only [Json.nest] at hd
    simp only [Json.plain] at hj
    obtain ⟨f, rfl⟩ : ∃ f, fuel = f + 1 := ⟨fuel - 1, by omega⟩
    exact parseValue_obj f depth kvs rest (by omega)
      (fun hne => parse_render_members kvs hj hne f (depth + 1) rest (by omega) (by omega))
/-- The elements of a non-empty array, up to the closing bracket. -/
theorem parse_render_elems : (xs : List Json) → Json.plainElems xs → xs ≠ [] →
    (fuel depth : Nat) → (rest : Bytes) → Json.needElems xs ≤ fuel →
    depth + Json.nestElems xs ≤ maxNestingDepth →
    parseElems fuel depth (Json.renderElems xs ++ 93 :: rest) = some (xs, rest)
  | [], _, hne, _, _, _, _, _ => absurd rfl hne
  | x :: xs, hj, _, fuel, depth, rest, hf, hd => by
    simp only [Json.needElems] at hf
    simp only [Json.nestElems] at hd
    simp only [Json.plainElems] at hj
    have m1 := Nat.le_max_left (Json.nest x) (Json.nestElems xs)
    have m2 := Nat.le_max_right (Json.nest x) (Json.nestElems xs)
    obtain ⟨f, rfl⟩ : ∃ f, fuel = f + 1 := ⟨fuel - 1, by omega⟩
    exact parseElems_step f depth x xs rest
      (fun r hr => parse_render x hj.1 f depth r (by omega) (by omega) hr)
      (fun hne => parse_render_elems xs hj.2 hne f depth rest (by omega) (by omega))
/-- The members of a non-empty object, up to the closing brace. -/
theorem parse_render_members : (kvs : List (Bytes × Json)) → Json.plainMembers kvs →
    kvs ≠ [] → (fuel depth : Nat) → (rest : Bytes) → Json.needMembers kvs ≤ fuel →
    depth + Json.nestMembers kvs ≤ maxNestingDepth →
    parseMembers fuel depth (Json.renderMembers kvs ++ 125 :: rest) = some (kvs, rest)
  | [], _, hne, _, _, _, _, _ => absurd rfl hne
  | (k, v) :: kvs, hj, _, fuel, depth, rest, hf, hd => by
    simp only [Json.needMembers] at hf
    simp only [Json.nestMembers] at hd
    simp only [Json.plainMembers] at hj
    have m1 := Nat.le_max_left (Json.nest v) (Json.nestMembers kvs)
    have m2 := Nat.le_max_right (Json.nest v) (Json.nestMembers kvs)
    obtain ⟨f, rfl⟩ : ∃ f, fuel = f + 1 := ⟨fuel - 1, by omega⟩
    exact parseMembers_step f depth k v kvs rest hj.1
      (fun r hr => parse_render v hj.2.1 f depth r (by omega) (by omega) hr)
      (fun hne => parse_render_members kvs hj.2.2 hne f depth rest (by omega) (by omega))
end

theorem appendString_length (s : Bytes) : 2 ≤ (appendString s).length := by
  simp [appendString]

mutual
theorem need_le_length : (j : Json) → j.plain → j.need ≤ j.render.length
  | .null, _ => by simp [Json.need, Json.render, lit]
  | .bool b, _ => by cases b <;> simp [Json.need, Json.render, lit]
  | .num text, hj => by
    simp only [Json.plain] at hj
    obtain ⟨n, rfl⟩ := hj
    obtain ⟨c, tail, hc, _⟩ := decimal_shape n
    simp [Json.need, Json.render, hc]
  | .str s, _ => by
    have := appendString_length s
    simp only [Json.need, Json.render]
    omega
  | .arr xs, hj => by
    simp only [Json.plain] at hj
    have := needElems_le_length xs hj
    simp only [Json.need, Json.render, List.length_append, List.length_singleton]
    omega
  | .obj kvs, hj => by
    simp only [Json.plain] at hj
    have := needMembers_le_length kvs hj
    simp only [Json.need, Json.render, List.length_append, List.length_singleton]
    omega
theorem needElems_le_length : (xs : List Json) → Json.plainElems xs →
    Json.needElems xs ≤ (Json.renderElems xs).length + 1
  | [], _ => by simp [Json.needElems]
  | [x], hj => by
    simp only [Json.plainElems] at hj
    have := need_le_length x hj.1
    simp only [Json.needElems, Json.renderElems]
    omega
  | x :: y :: ys, hj => by
    simp only [Json.plainElems] at hj
    have h1 := need_le_length x hj.1
    have h2 := needElems_le_length (y :: ys) hj.2
    have e1 : Json.renderElems (x :: y :: ys)
        = x.render ++ [44] ++ Json.renderElems (y :: ys) := by
      rw [Json.renderElems]
    have e2 : Json.needElems (x :: y :: ys) = 1 + x.need + Json.needElems (y :: ys) := by
      rw [Json.needElems]
    rw [e1, e2]
    simp only [List.length_append, List.length_singleton]
    omega
theorem needMembers_le_length : (kvs : List (Bytes × Json)) → Json.plainMembers kvs →
    Json.needMembers kvs ≤ (Json.renderMembers kvs).length + 1
  | [], _ => by simp [Json.needMembers]
  | [(k, v)], hj => by
    simp only [Json.plainMembers] at hj
    have := need_le_length v hj.2.1
    simp only [Json.needMembers, Json.renderMembers, List.length_append,
      List.length_singleton]
    omega
  | (k, v) :: kv :: kvs, hj => by
    simp only [Json.plainMembers] at hj
    have h1 := need_le_length v hj.2.1
    have h2 := needMembers_le_length (kv :: kvs) hj.2.2
    have e1 : Json.renderMembers ((k, v) :: kv :: kvs)
        = appendString k ++ [58] ++ v.render ++ [44] ++ Json.renderMembers (kv :: kvs) := by
      rw [Json.renderMembers]
    have e2 : Json.needMembers ((k, v) :: kv :: kvs)
        = 1 + v.need + Json.needMembers (kv :: kvs) := by
      rw [Json.needMembers]
    rw [e1, e2]
    simp only [List.length_append, List.length_singleton]
    omega
end

/-- Reading the compact text of a plain document of moderate depth gives the document. -/
theorem parseJSON_render (j : Json) (hj : j.plain) (hd : j.nest ≤ maxNestingDepth) :
    parseJSON j.render = some j := by
  have h := parse_render j hj (j.render.length + 1) 0 []
    (by have := need_le_length j hj; omega) (by omega) rfl
  rw [List.append_nil] at h
  simp [parseJSON, h, skipWS]

/-! ## Round trip of a check tag -/

theorem valid_field_names :
    ValidUTF8 (lit "pk") ∧ ValidUTF8 (lit "url") ∧ ValidUTF8 (lit "tag")
      ∧ ValidUTF8 (lit "color_hex") :=
  ⟨⟨[112, 107], by decide, rfl⟩, ⟨[117, 114, 108], by decide, rfl⟩,
    ⟨[116, 97, 103], by decide, rfl⟩,
    ⟨[99, 111, 108, 111, 114, 95, 104, 101, 120], by decide, rfl⟩⟩

theorem checkTag_toJson_plain (t : CheckTag) (hu : ValidUTF8 t.Url) (hn : ValidUTF8 t.Name)
    (hc : ValidUTF8 t.ColorHex) : t.toJson.plain ∧ t.toJson.nest = 1 := by
  obtain ⟨k1, k2, k3, k4⟩ := valid_field_names
  unfold CheckTag.toJson
  by_cases hpk : t.Pk = 0 <;> by_cases hurl : t.Url = [] <;>
    simp [hpk, hurl, Json.plain, Json.plainMembers, Json.nest, Json.nestMembers, k1, k2, k3,
      k4, hn, hc] <;> exact hu

theorem checkTag_decode_toJson (fold : Bytes → Bytes) (t : CheckTag) (hpk : t.Pk < 2 ^ 64) :
    CheckTag.decode fold t.toJson CheckTag.zero = .ok t := by
  have f0 : findField fold CheckTag.fieldNames (lit "pk") = some 0 := rfl
  have f1 : findField fold CheckTag.fieldNames (lit "url") = some 1 := rfl
  have f2 : findField fold CheckTag.fieldNames (lit "tag") = some 2 := rfl
  have f3 : findField fold CheckTag.fieldNames (lit "color_hex") = some 3 := rfl
  obtain ⟨pk, url, name, color⟩ := t
  simp only at hpk
  unfold CheckTag.toJson CheckTag.decode
  by_cases h0 : pk = 0 <;> by_cases h1 : url = [] <;>
    simp [h0, h1, CheckTag.setFields, CheckTag.setField, f0, f1, f2, f3, decodeUint,
      decodeString, parseUint_decimal pk hpk, Except.map, CheckTag.zero]

/-- C6 fails as stated: a record whose `Name` is the single byte 0xFF, which is not
valid UTF-8, comes back with `Name` U+FFFD (bytes EF BF BD). -/
theorem roundtrip_invalid_utf8 :
    Unmarshal (fun j => CheckTag.decode asciiFold j CheckTag.zero)
        (CheckTag.Marshal ⟨0, [], [0xFF], []⟩)
      = .ok ⟨0, [], [0xEF, 0xBF, 0xBD], []⟩
    ∧ (⟨0, [], [0xEF, 0xBF, 0xBD], []⟩ : CheckTag) ≠ ⟨0, [], [0xFF], []⟩ :=
  ⟨rfl, by decide⟩

/-- C6, amended. For every `CheckTag` whose `Url`, `Name` and `ColorHex` are valid UTF-8
(`Pk` being a `uint`, including `Pk = 0` and `Url = ""`, which the encoder leaves out),
`json.Unmarshal` of `json.Marshal` of the record into a zero record gives the record
back, equal in all four fields. -/
theorem CheckTag_roundtrip (fold : Bytes → Bytes) (r : CheckTag) (hpk : r.Pk < 2 ^ 64)
    (hu : ValidUTF8 r.Url) (hn : ValidUTF8 r.Name) (hc : ValidUTF8 r.ColorHex) :
    Unmarshal (fun j => CheckTag.decode fold j CheckTag.zero) r.Marshal = .ok r := by
  obtain ⟨hp, hnest⟩ := checkTag_toJson_plain r hu hn hc
  unfold Unmarshal CheckTag.Marshal
  rw [parseJSON_render r.toJson hp (by rw [hnest]; decide)]
  exact checkTag_decode_toJson fold r hpk

/-- C6 amended, at a record with all fields set and at the record with `Pk = 0` and
`Url = ""`. -/
theorem CheckTag_roundtrip_witness :
    Unmarshal (fun j => CheckTag.decode asciiFold j CheckTag.zero)
        (CheckTag.Marshal ⟨7, lit "https://uptime.com/api/v1/check-tags/7", lit "a", lit "#fff"⟩)
      = .ok ⟨7, lit "https://uptime.com/api/v1/check-tags/7", lit "a", lit "#fff"⟩
    ∧ Unmarshal (fun j => CheckTag.decode asciiFold j CheckTag.zero)
        (CheckTag.Marshal ⟨0, [], [0xC3, 0xA9], lit "<&>"⟩)
      = .ok ⟨0, [], [0xC3, 0xA9], lit "<&>"⟩ :=
  ⟨CheckTag_roundtrip asciiFold
      ⟨7, lit "https://uptime.com/api/v1/check-tags/7", lit "a", lit "#fff"⟩ (by decide)
      ⟨(lit "https://uptime.com/api/v1/check-tags/7"), by decide, rfl⟩
      ⟨[97], by decide, rfl⟩ ⟨[35, 102, 102, 102], by decide, rfl⟩,
   CheckTag_roundtrip asciiFold ⟨0, [], [0xC3, 0xA9], lit "<&>"⟩ (by decide)
      ⟨[], by decide, rfl⟩ ⟨[0xE9], by decide, rfl⟩ ⟨[60, 38, 62], by decide, rfl⟩⟩

/-! ## Listing -/

theorem plainMembers_iff (kvs : List (Bytes × Json)) :
    Json.plainMembers kvs ↔ ∀ kv ∈ kvs, ValidUTF8 kv.1 ∧ Json.plain kv.2 := by
  induction kvs with
  | nil => simp [Json.plainMembers]
  | cons kv kvs ih =>
    obtain ⟨k, v⟩ := kv
    simp only [Json.plainMembers, ih, List.mem_cons, forall_eq_or_imp, and_assoc]

theorem nestMembers_le (n : Nat) (kvs : List (Bytes × Json))
    (h : ∀ kv ∈ kvs, Json.nest kv.2 ≤ n) : Json.nestMembers kvs ≤ n := by
  induction kvs with
  | nil => simp [Json.nestMembers]
  | cons kv kvs ih =>
    obtain ⟨k, v⟩ := kv
    simp only [Json.nestMembers]
    exact Nat.max_le.mpr ⟨h (k, v) (List.mem_cons_self _ _),
      ih (fun x hx => h x (List.mem_cons_of_mem _ hx))⟩

theorem records_plain (ts : List CheckTag)
    (hts : ∀ t ∈ ts, t.Pk < 2 ^ 64 ∧ ValidUTF8 t.Url ∧ ValidUTF8 t.Name
      ∧ ValidUTF8 t.ColorHex) :
    Json.plainElems (ts.map CheckTag.toJson)
      ∧ Json.nestElems (ts.map CheckTag.toJson) ≤ 1 := by
  induction ts with
  | nil => simp [Json.plainElems, Json.nestElems]
  | cons t ts ih =>
    obtain ⟨_, hu, hn, hc⟩ := hts t (List.mem_cons_self _ _)
    obtain ⟨hp, hnest⟩ := checkTag_toJson_plain t hu hn hc
    obtain ⟨ih1, ih2⟩ := ih (fun x hx => hts x (List.mem_cons_of_mem _ hx))
    simp only [List.map_cons, Json.plainElems, Json.nestElems]
    exact ⟨⟨hp, ih1⟩, Nat.max_le.mpr ⟨by omega, ih2⟩⟩

theorem envelope_member_plain (count : Nat) (next previous : Option Nat)
    (ts : List CheckTag)
    (hts : ∀ t ∈ ts, t.Pk < 2 ^ 64 ∧ ValidUTF8 t.Url ∧ ValidUTF8 t.Name
      ∧ ValidUTF8 t.ColorHex) :
    ∀ kv ∈ envelopeMembers count next previous ts,
      (ValidUTF8 kv.1 ∧ Json.plain kv.2) ∧ Json.nest kv.2 ≤ 2 := by
  have ho : ∀ o : Option Nat, Json.plain (optUint o) ∧ Json.nest (optUint o) ≤ 2 := by
    intro o
    cases o with
    | none => simp [optUint, Json.plain, Json.nest]
    | some n => simp [optUint, Json.plain, Json.nest]
  obtain ⟨r1, r2⟩ := records_plain ts hts
  intro kv hkv
  simp only [envelopeMembers, List.mem_cons, List.mem_singleton, List.not_mem_nil,
    or_false] at hkv
  rcases hkv with h | h | h | h <;> subst h
  · exact ⟨⟨⟨[99, 111, 117, 110, 116], by decide, rfl⟩, by simp [Json.plain]⟩,
      by simp [Json.nest]⟩
  · exact ⟨⟨⟨[110, 101, 120, 116], by decide, rfl⟩, (ho next).1⟩, (ho next).2⟩
  · exact ⟨⟨⟨[112, 114, 101, 118, 105, 111, 117, 115], by decide, rfl⟩, (ho previous).1⟩,
      (ho previous).2⟩
  · refine ⟨⟨⟨[114, 101, 115, 117, 108, 116, 115], by decide, rfl⟩, ?_⟩, ?_⟩
    · simp only [Json.plain]
      exact r1
    · simp only [Json.nest]
      omega

theorem decodeElems_toJson (fold : Bytes → Bytes) (ts : List CheckTag)
    (hpk : ∀ t ∈ ts, t.Pk < 2 ^ 64) :
    decodeElems fold (ts.map CheckTag.toJson) [] = .ok ts := by
  induction ts with
  | nil => rfl
  | cons t ts ih =>
    simp only [List.map_cons, decodeElems, List.headD_nil, List.tail_nil,
      checkTag_decode_toJson fold t (hpk t (List.mem_cons_self _ _)),
      ih (fun x hx => hpk x (List.mem_cons_of_mem _ hx))]

theorem decode_results_fresh (fold : Bytes → Bytes) (ts : List CheckTag)
    (hpk : ∀ t ∈ ts, t.Pk < 2 ^ 64) :
    ∃ spare, TagSlice.decode fold (.arr (ts.map CheckTag.toJson)) ⟨[], []⟩
      = .ok ⟨ts, spare⟩ := by
  cases ts with
  | nil => exact ⟨[], rfl⟩
  | cons t ts =>
    refine ⟨[], ?_⟩
    have := decodeElems_toJson fold (t :: ts) hpk
    simp only [List.map_cons] at this
    simp only [List.map_cons, TagSlice.decode, List.append_nil, this, List.drop_nil]

/-- Storing members of the list envelope, each at most once and in any order, succeeds,
and leaves the records in `Results` once the "results" member has been stored. -/
theorem setFields_envelope (fold : Bytes → Bytes) (count : Nat) (next previous : Option Nat)
    (ts : List CheckTag) (hcount : count < 2 ^ 64) (hnext : ∀ n, next = some n → n < 2 ^ 64)
    (hprev : ∀ n, previous = some n → n < 2 ^ 64) (hpk : ∀ t ∈ ts, t.Pk < 2 ^ 64) :
    ∀ (kvs : List (Bytes × Json)) (r : CheckTagListResult), kvs.Nodup →
      (∀ kv ∈ kvs, kv ∈ envelopeMembers count next previous ts) →
      ((lit "results", Json.arr (ts.map CheckTag.toJson)) ∈ kvs → r.Results = ⟨[], []⟩) →
      ∃ r1, CheckTagListResult.setFields fold r kvs = .ok r1
        ∧ ((lit "results", Json.arr (ts.map CheckTag.toJson)) ∈ kvs → r1.Results.elems = ts)
        ∧ ((lit "results", Json.arr (ts.map CheckTag.toJson)) ∉ kvs
            → r1.Results = r.Results) := by
  have f0 : findField fold envelopeFieldNames (lit "count") = some 0 := rfl
  have f1 : findField fold envelopeFieldNames (lit "next") = some 1 := rfl
  have f2 : findField fold envelopeFieldNames (lit "previous") = some 2 := rfl
  have f3 : findField fold envelopeFieldNames (lit "results") = some 3 := rfl
  have hn : ∀ old, decodeUintPtr (optUint next) old = .ok next := by
    intro old
    cases next with
    | none => rfl
    | some n => simp [optUint, decodeUintPtr, decodeUint, parseUint_decimal n (hnext n rfl)]
  have hp : ∀ old, decodeUintPtr (optUint previous) old = .ok previous := by
    intro old
    cases previous with
    | none => rfl
    | some n => simp [optUint, decodeUintPtr, decodeUint, parseUint_decimal n (hprev n rfl)]
  have k0 : ∀ x y : Json, ((lit "results", x) : Bytes × Json) ≠ (lit "count", y) := by
    intro x y h
    have h1 : (lit "results" : Bytes) = _ := congrArg Prod.fst h
    revert h1
    simp only
    decide
  have k1 : ∀ x y : Json, ((lit "results", x) : Bytes × Json) ≠ (lit "next", y) := by
    intro x y h
    have h1 : (lit "results" : Bytes) = _ := congrArg Prod.fst h
    revert h1
    simp only
    decide
  have k2 : ∀ x y : Json, ((lit "results", x) : Bytes × Json) ≠ (lit "previous", y) := by
    intro x y h
    have h1 : (lit "results" : Bytes) = _ := congrArg Prod.fst h
    revert h1
    simp only
    decide
  intro kvs
  induction kvs with
  | nil =>
    intro r _ _ _
    exact ⟨r, rfl, fun h => absurd h (List.not_mem_nil _), fun _ => rfl⟩
  | cons kv kvs ih =>
    intro r hnd hsub hres
    have hnd1 := (List.nodup_cons.mp hnd).2
    have hnotin := (List.nodup_cons.mp hnd).1
    have hsub1 : ∀ x ∈ kvs, x ∈ envelopeMembers count next previous ts :=
      fun x hx => hsub x (List.mem_cons_of_mem _ hx)
    have hkv := hsub kv (List.mem_cons_self _ _)
    simp only [envelopeMembers, List.mem_cons, List.mem_singleton, List.not_mem_nil,
      or_false] at hkv
    rcases hkv with h | h | h | h
    · subst h
      have hstep : CheckTagListResult.setField fold r (lit "count") (.num (decimal count))
          = .ok { r with Count := count } := by
        simp [CheckTagListResult.setField, f0, decodeUint, parseUint_decimal count hcount,
          Except.map]
      obtain ⟨r1, e1, e2, e3⟩ := ih { r with Count := count } hnd1 hsub1
        (fun hm => hres (List.mem_cons_of_mem _ hm))
      refine ⟨r1, by simp only [CheckTagListResult.setFields, hstep, e1], ?_, ?_⟩
      · intro hm
        rcases List.mem_cons.mp hm with hm | hm
        · exact absurd hm (k0 _ _)
        · exact e2 hm
      · intro hm
        exact e3 (fun h => hm (List.mem_cons_of_mem _ h))
    · subst h
      have hstep : CheckTagListResult.setField fold r (lit "next") (optUint next)
          = .ok { r with Next := next } := by
        simp [CheckTagListResult.setField, f1, hn, Except.map]
      obtain ⟨r1, e1, e2, e3⟩ := ih { r with Next := next } hnd1 hsub1
        (fun hm => hres (List.mem_cons_of_mem _ hm))
      refine ⟨r1, by simp only [CheckTagListResult.setFields, hstep, e1], ?_, ?_⟩
      · intro hm
        rcases List.mem_cons.mp hm with hm | hm
        · exact absurd hm (k1 _ _)
        · exact e2 hm
      · intro hm
        exact e3 (fun h => hm (List.mem_cons_of_mem _ h))
    · subst h
      have hstep : CheckTagListResult.setField fold r (lit "previous") (optUint previous)
          = .ok { r with Previous := previous } := by
        simp [CheckTagListResult.setField, f2, hp, Except.map]
      obtain ⟨r1, e1, e2, e3⟩ := ih { r with Previous := previous } hnd1 hsub1
        (fun hm => hres (List.mem_cons_of_mem _ hm))
      refine ⟨r1, by simp only [CheckTagListResult.setFields, hstep, e1], ?_, ?_⟩
      · intro hm
        rcases List.mem_cons.mp hm with hm | hm
        · exact absurd hm (k2 _ _)
        · exact e2 hm
      · intro hm
        exact e3 (fun h => hm (List.mem_cons_of_mem _ h))
    · subst h
      have hr0 := hres (List.mem_cons_self _ _)
      obtain ⟨spare, hdec⟩ := decode_results_fresh fold ts hpk
      have hstep : CheckTagListResult.setField fold r (lit "results")
          (.arr (ts.map CheckTag.toJson)) = .ok { r with Results := ⟨ts, spare⟩ } := by
        simp [CheckTagListResult.setField, f3, hr0, hdec, Except.map]
      obtain ⟨r1, e1, _, e3⟩ := ih { r with Results := ⟨ts, spare⟩ } hnd1 hsub1
        (fun hm => absurd hm hnotin)
      refine ⟨r1, by simp only [CheckTagListResult.setFields, hstep, e1], ?_, ?_⟩
      · intro _
        rw [e3 hnotin]
      · intro hm
        exact absurd (List.mem_cons_self _ _) hm

theorem envelopeMembers_nodup (count : Nat) (next previous : Option Nat)
    (ts : List CheckTag) : (envelopeMembers count next previous ts).Nodup := by
  have hk : ((envelopeMembers count next previous ts).map Prod.fst).Nodup := by
    simp only [envelopeMembers, List.map_cons, List.map_nil]
    decide
  exact List.Nodup.of_map _ hk

/-- C5. When the transport answers with a successful status and a body that is the text
of the list envelope with members count, next, previous and results `[t1..tn]`, written
in any order, `GetCheckTags` returns exactly the records t1..tn, in that order and with
no error, whatever `count`, `next` and `previous` are. -/
theorem GetCheckTags_returns_results (w : World) (c : UptimeClient) (resp : Response)
    (body : Bytes) (members : List (Bytes × Json)) (count : Nat)
    (next previous : Option Nat) (ts : List CheckTag)
    (hurl : ∃ u, w.parseURL (c.baseUrl ++ lit "check-tags/") = .ok u)
    (hw : ∀ r, w.Do r = .ok resp) (hs : resp.StatusCode < 400)
    (hb : ReadAll resp.Body = .ok body)
    (hmembers : members.Perm (envelopeMembers count next previous ts))
    (hbody : body = (Json.obj members).render)
    (hcount : count < 2 ^ 64) (hnext : ∀ n, next = some n → n < 2 ^ 64)
    (hprev : ∀ n, previous = some n → n < 2 ^ 64)
    (hts : ∀ t ∈ ts, t.Pk < 2 ^ 64 ∧ ValidUTF8 t.Url ∧ ValidUTF8 t.Name
      ∧ ValidUTF8 t.ColorHex) :
    (c.GetCheckTags w).1 = .returned (.ok ts) := by
  have hd := fun req b => do_success w c req b resp body hw hs hb
  obtain ⟨u, hu⟩ := hurl
  have hall := envelope_member_plain count next previous ts hts
  have hplain : (Json.obj members).plain := by
    simp only [Json.plain]
    exact (plainMembers_iff members).mpr
      (fun kv hkv => (hall kv ((hmembers.mem_iff).mp hkv)).1)
  have hnest : (Json.obj members).nest ≤ maxNestingDepth := by
    have := nestMembers_le 2 members
      (fun kv hkv => (hall kv ((hmembers.mem_iff).mp hkv)).2)
    simp only [Json.nest, maxNestingDepth]
    omega
  have hparse : parseJSON body = some (.obj members) := by
    rw [hbody]
    exact parseJSON_render _ hplain hnest
  have hres : (lit "results", Json.arr (ts.map CheckTag.toJson)) ∈ members :=
    (hmembers.mem_iff).mpr (by simp [envelopeMembers])
  obtain ⟨r1, e1, e2, _⟩ := setFields_envelope w.foldName count next previous ts hcount hnext
    hprev (fun t ht => (hts t ht).1) members ⟨0, none, none, ⟨[], []⟩⟩
    ((hmembers.nodup_iff).mpr (envelopeMembers_nodup count next previous ts))
    (fun kv hkv => (hmembers.mem_iff).mp hkv) (fun _ => rfl)
  simp only [UptimeClient.GetCheckTags, UptimeClient.get, UptimeClient.getRaw,
    NewRequestWithContext, hu, hd, Option.getD_some, Unmarshal, hparse,
    CheckTagListResult.decodePtr, e1, Except.map, e2 hres]

/-- C5, at the two-record body of the scenario; the same records come back from a body
with the members in another order and white space between the tokens, and a tag written
with escapes comes back as its UTF-8 bytes. -/
theorem GetCheckTags_returns_results_witness :
    (stubClient.GetCheckTags (stubWorld 200 (lit "200 OK") scenarioBody)).1
      = .returned (.ok [⟨1, [], lit "a", lit "#fff"⟩, ⟨2, [], lit "b", lit "#000"⟩])
    ∧ (stubClient.GetCheckTags (stubWorld 200 (lit "200 OK") spacedBody)).1
      = .returned (.ok [⟨1, [], lit "a", lit "#fff"⟩, ⟨2, [], lit "b", lit "#000"⟩])
    ∧ (stubClient.GetCheckTags (stubWorld 200 (lit "200 OK") escapedBody)).1
      = .returned (.ok [⟨3, [], [0xF0, 0x9F, 0x98, 0x80], lit "#fff"⟩]) :=
  ⟨GetCheckTags_returns_results (stubWorld 200 (lit "200 OK") scenarioBody) stubClient
    ⟨200, lit "200 OK", ⟨scenarioBody, none⟩⟩ scenarioBody
    (envelopeMembers 2 none none
      [⟨1, [], lit "a", lit "#fff"⟩, ⟨2, [], lit "b", lit "#000"⟩]) 2 none none
    [⟨1, [], lit "a", lit "#fff"⟩, ⟨2, [], lit "b", lit "#000"⟩]
    ⟨_, rfl⟩ (fun _ => rfl) (by decide) rfl (List.Perm.refl _) rfl (by decide)
    (fun _ h => by cases h) (fun _ h => by cases h)
    (by
      intro t ht
      simp only [List.mem_cons, List.mem_singleton, List.not_mem_nil, or_false] at ht
      rcases ht with h | h <;> subst h
      · exact ⟨by decide, ⟨[], by decide, rfl⟩, ⟨[97], by decide, rfl⟩,
          ⟨[35, 102, 102, 102], by decide, rfl⟩⟩
      · exact ⟨by decide, ⟨[], by decide, rfl⟩, ⟨[98], by decide, rfl⟩,
          ⟨[35, 48, 48, 48], by decide, rfl⟩⟩),
   rfl, rfl⟩

/-! ## Payloads -/

theorem parseMembers_last (fuel depth : Nat) (k : Bytes) (v v1 : Json) (rest : Bytes)
    (hk : ValidUTF8 k)
    (hv : ∀ r, stops r = true → parseValue fuel depth (v.render ++ r) = some (v1, r)) :
    parseMembers (fuel + 1) depth (Json.renderMembers [(k, v)] ++ 125 :: rest)
      = some ([(k, v1)], rest) := by
  rw [renderMembers_cons]
  simp only [parseMembers, parseString_appendString k _ hk]
  simp [skipWS, isSpace, hv (125 :: rest) rfl]

theorem parseMembers_more (fuel depth : Nat) (k : Bytes) (v v1 : Json) (kv : Bytes × Json)
    (more kvs1 : List (Bytes × Json)) (rest : Bytes) (hk : ValidUTF8 k)
    (hv : ∀ r, stops r = true → parseValue fuel depth (v.render ++ r) = some (v1, r))
    (ih : parseMembers fuel depth (Json.renderMembers (kv :: more) ++ 125 :: rest)
        = some (kvs1, rest)) :
    parseMembers (fuel + 1) depth (Json.renderMembers ((k, v) :: kv :: more) ++ 125 :: rest)
      = some ((k, v1) :: kvs1, rest) := by
  obtain ⟨k1, w1⟩ := kv
  rw [renderMembers_cons] at ih
  rw [renderMembers_cons]
  have e := hv (44 :: (Json.renderMembers ((k1, w1) :: more) ++ 125 :: rest)) rfl
  simp only [parseMembers, parseString_appendString k _ hk]
  have s58 : ∀ x : Bytes, skipWS (58 :: x) = 58 :: x := fun x => rfl
  have s44 : ∀ x : Bytes, skipWS (44 :: x) = 44 :: x := fun x => rfl
  have s34 : ∀ x : Bytes, skipWS (34 :: x) = 34 :: x := fun x => rfl
  simp only [s58]
  rw [e]
  simp only [s44]
  rw [renderMembers_cons]
  simp only [s34, ih]

theorem parseValue_obj_members (fuel depth : Nat) (kv : Bytes × Json)
    (kvs kvs1 : List (Bytes × Json)) (rest : Bytes) (hd : depth < maxNestingDepth)
    (ih : parseMembers fuel (depth + 1) (Json.renderMembers (kv :: kvs) ++ 125 :: rest)
        = some (kvs1, rest)) :
    parseValue (fuel + 1) depth ((Json.obj (kv :: kvs)).render ++ rest)
      = some (.obj kvs1, rest) := by
  have hd1 : ¬ maxNestingDepth ≤ depth := by omega
  have s123 : ∀ x : Bytes, skipWS (123 :: x) = 123 :: x := fun x => rfl
  have s34 : ∀ x : Bytes, skipWS (34 :: x) = 34 :: x := fun x => rfl
  obtain ⟨k, v⟩ := kv
  rw [renderMembers_cons] at ih
  have e : (Json.obj ((k, v) :: kvs)).render ++ rest
      = 123 :: (Json.renderMembers ((k, v) :: kvs) ++ 125 :: rest) := by
    simp only [Json.render, List.append_assoc, List.singleton_append, List.cons_append,
      List.nil_append]
  rw [e, renderMembers_cons]
  simp only [parseValue, s123, s34, if_true, hd1, if_false]
  rw [ih]

/-- The text of a two-member object of strings, whatever the strings, is read back as
that object with the invalid bytes of the strings replaced by U+FFFD. -/
theorem payload_read_back (name color : Bytes) :
    parseJSON (Json.render (.obj [(lit "tag", .str name), (lit "color_hex", .str color)]))
      = some (.obj [(lit "tag", .str (toValidUTF8 name)),
          (lit "color_hex", .str (toValidUTF8 color))]) := by
  obtain ⟨_, _, k3, k4⟩ := valid_field_names
  have hlen : 3 ≤ (Json.render (.obj [(lit "tag", .str name),
      (lit "color_hex", .str color)])).length := by
    simp [Json.render, Json.renderMembers, appendString]
    omega
  obtain ⟨f, hf⟩ : ∃ f, (Json.render (.obj [(lit "tag", .str name),
      (lit "color_hex", .str color)])).length + 1 = f + 4 :=
    ⟨(Json.render (.obj [(lit "tag", .str name),
      (lit "color_hex", .str color)])).length - 3, by omega⟩
  have m2 := parseMembers_last (f + 1) 1 (lit "color_hex") (.str color)
    (.str (toValidUTF8 color)) [] k4 (fun r _ => parseValue_str_general f 1 color r)
  have m1 := parseMembers_more (f + 2) 1 (lit "tag") (.str name) (.str (toValidUTF8 name))
    (lit "color_hex", .str color) [] _ [] k3
    (fun r _ => parseValue_str_general (f + 1) 1 name r) m2
  have h := parseValue_obj_members (f + 3) 0 (lit "tag", .str name)
    [(lit "color_hex", .str color)] _ [] (by decide) m1
  rw [List.append_nil] at h
  unfold parseJSON
  rw [hf, h]
  rfl

/-- C4 fails as stated: for a record whose `Name` is the byte 0xFF the payload of
`UpdateCheckTag` holds U+FFFD (bytes EF BF BD) under "tag", not the `Name`. -/
theorem payload_invalid_utf8 :
    ∃ req body,
      (stubClient.UpdateCheckTag (stubWorld 200 (lit "200 OK") [])
          ⟨9, lit "u", [0xFF], lit "#fff"⟩).sent = [.request req]
      ∧ req.Body = some body
      ∧ parseJSON body = some (.obj [(lit "tag", .str [0xEF, 0xBF, 0xBD]),
          (lit "color_hex", .str (lit "#fff"))])
      ∧ ([0xEF, 0xBF, 0xBD] : Bytes) ≠ [0xFF] :=
  ⟨_, _, rfl, rfl, rfl, by decide⟩

/-- C4, amended. For every `CheckTag`, whatever its `Pk` and `Url`, `UpdateCheckTag`
makes at most one call, a PUT, and `NewCheckTag` at most one, a POST (none when the
request URL does not parse); the body of either, read as JSON, is the object with
exactly the members "tag" and "color_hex", holding the record's `Name` and `ColorHex`
with every byte that is not part of valid UTF-8 replaced by U+FFFD, which leaves them
as they are when they are valid UTF-8. The body has no "pk" and no "url" member. -/
theorem update_and_create_payload (w : World) (c : UptimeClient) (t : CheckTag) :
    (c.UpdateCheckTag w t).sent
      = (match w.parseURL (c.baseUrl ++ (lit "check-tags/" ++ decimal t.Pk)) with
         | .ok u => [.request (c.addRequestHeaders
             ⟨MethodPut, c.baseUrl ++ (lit "check-tags/" ++ decimal t.Pk), u, [],
              some (Json.render (.obj [(lit "tag", .str t.Name),
                (lit "color_hex", .str t.ColorHex)]))⟩)]
         | .error _ => [])
    ∧ (c.NewCheckTag w t).2
      = (match w.parseURL (c.baseUrl ++ lit "check-tags/") with
         | .ok u => [.request (c.addRequestHeaders
             ⟨MethodPost, c.baseUrl ++ lit "check-tags/", u, [],
              some (Json.render (.obj [(lit "tag", .str t.Name),
                (lit "color_hex", .str t.ColorHex)]))⟩)]
         | .error _ => [])
    ∧ (∀ call, call ∈ (c.UpdateCheckTag w t).sent ++ (c.NewCheckTag w t).2 →
        ∃ req body, call = .request req ∧ req.Body = some body
          ∧ parseJSON body = some (.obj [(lit "tag", .str (toValidUTF8 t.Name)),
              (lit "color_hex", .str (toValidUTF8 t.ColorHex))]))
    ∧ (ValidUTF8 t.Name → toValidUTF8 t.Name = t.Name)
    ∧ (ValidUTF8 t.ColorHex → toValidUTF8 t.ColorHex = t.ColorHex) := by
  have h1 : (c.UpdateCheckTag w t).sent
      = (match w.parseURL (c.baseUrl ++ (lit "check-tags/" ++ decimal t.Pk)) with
         | .ok u => [.request (c.addRequestHeaders
             ⟨MethodPut, c.baseUrl ++ (lit "check-tags/" ++ decimal t.Pk), u, [],
              some (Json.render (.obj [(lit "tag", .str t.Name),
                (lit "color_hex", .str t.ColorHex)]))⟩)]
         | .error _ => []) := by
    simp only [UptimeClient.UpdateCheckTag, UptimeClient.put, NewRequestWithContext]
    cases w.parseURL (c.baseUrl ++ (lit "check-tags/" ++ decimal t.Pk)) with
    | error e => rfl
    | ok u => rfl
  have h2 : (c.NewCheckTag w t).2
      = (match w.parseURL (c.baseUrl ++ lit "check-tags/") with
         | .ok u => [.request (c.addRequestHeaders
             ⟨MethodPost, c.baseUrl ++ lit "check-tags/", u, [],
              some (Json.render (.obj [(lit "tag", .str t.Name),
                (lit "color_hex", .str t.ColorHex)]))⟩)]
         | .error _ => []) := by
    simp only [UptimeClient.NewCheckTag, UptimeClient.post, NewRequestWithContext]
    cases hp : w.parseURL (c.baseUrl ++ lit "check-tags/") with
    | error e => rfl
    | ok u =>
      simp only [UptimeClient.do]
      split
      · rfl
      · rfl
      · split <;> rfl
  refine ⟨h1, h2, ?_, toValidUTF8_valid _, toValidUTF8_valid _⟩
  intro call hcall
  rw [h1, h2] at hcall
  rcases List.mem_append.mp hcall with hm | hm
  · cases hu : w.parseURL (c.baseUrl ++ (lit "check-tags/" ++ decimal t.Pk)) with
    | error e => rw [hu] at hm; simp at hm
    | ok u =>
      rw [hu] at hm
      simp only [List.mem_singleton] at hm
      exact ⟨_, _, hm, rfl, payload_read_back t.Name t.ColorHex⟩
  · cases hu : w.parseURL (c.baseUrl ++ lit "check-tags/") with
    | error e => rw [hu] at hm; simp at hm
    | ok u =>
      rw [hu] at hm
      simp only [List.mem_singleton] at hm
      exact ⟨_, _, hm, rfl, payload_read_back t.Name t.ColorHex⟩

/-! ## The scanner on small inputs -/

theorem scanner_examples :
    parseJSON [] = none
    ∧ parseJSON (lit "null") = some .null
    ∧ parseJSON (lit " null\n") = some .null
    ∧ parseJSON (lit "boom") = none
    ∧ parseJSON (lit "[1,]") = none
    ∧ parseJSON (lit "01") = none
    ∧ parseJSON (lit "[1.5e3, true]") = some (.arr [.num (lit "1.5e3"), .bool true])
    ∧ parseJSON (lit "\"\\ud83d\\ude00\"") = some (.str [0xF0, 0x9F, 0x98, 0x80])
    ∧ appendString [0xE2, 0x80, 0xA8, 0xFF, 0x41] = lit "\"\\u2028\\ufffdA\"" :=
  ⟨rfl, rfl, rfl, rfl, rfl, rfl, rfl, rfl, rfl⟩

end Uptime
